import Mathlib

/-!
# lcomplex: a C struct of two doubles embedded into a Lua 5.1 host

Shallow embedding of `src/lcomplex.cpp`.

* The C type `double` is a type parameter `α` carrying the four operators the
  source uses (`+`, `-`, `*`, `/`).  `F64` further down is an executable model of
  IEEE-754 binary64 with round-to-nearest-even, which instantiates `α`.
* The Lua C API functions the source calls (`luaL_checkudata`, `lua_newuserdata`,
  `lua_setmetatable`, ...) are modelled after the Lua 5.1 reference manual as
  functions on an explicit `lua_State`.
* A C function either returns its number of results or raises a Lua error; in both
  cases the state it leaves behind is kept.
-/

namespace LComplex

/-! ## Data model -/

/-- The name of the metatable holding the interface to `S_COMPLEX`. -/
def LUA_COMPLEX : String := "COMPLEX-27A6AB09-6B67-4D08-BF4C-E054141C07DC"

/-- The C structure: `struct S_COMPLEX { double re; double im; }`. -/
structure S_COMPLEX (α : Type) where
  re : α
  im : α
  deriving DecidableEq, Repr

/-- Value of `sizeof(double)`. -/
def sizeof_double : Nat := 8

/-- Value of `sizeof(struct S_COMPLEX)`: two `double` fields, no padding. -/
def sizeof_S_COMPLEX : Nat := sizeof_double + sizeof_double

/-- A Lua value as it sits in a stack slot.  Tables are named by an identifier,
userdata and light userdata by the address of the block they point to. -/
inductive TValue (α : Type) where
  | nil
  | boolean (b : Bool)
  | lightuserdata (p : Nat)
  | number (n : α)
  | string (s : String)
  | table (t : Nat)
  | userdata (p : Nat)
  deriving DecidableEq, Repr

/-- A block of memory of `sizeof(S_COMPLEX)` bytes.  `metatable` is the metatable
the host attached to the block when it is a full userdata; `contents` is `none`
while the bytes are still indeterminate (fresh from `lua_newuserdata`). -/
structure Udata (α : Type) where
  metatable : Option Nat
  contents : Option (S_COMPLEX α)
  deriving DecidableEq, Repr

/-- The part of the host state the module touches: the stack frame of the running
C function (index 1 is the head of the list), the memory blocks (a pointer is an
index into the list) and the registry. -/
structure lua_State (α : Type) where
  stack : List (TValue α)
  memory : List (Udata α)
  registry : List (String × TValue α)
  deriving DecidableEq, Repr

/-- Errors a call can end with. -/
inductive LuaError where
  /-- Raised by `luaL_typerror`: argument `narg` is not of type `tname`. -/
  | typerror (narg : Int) (tname : String)
  /-- Raised by `luaL_error` with the given message. -/
  | error (msg : String)
  /-- Access through a null or dangling pointer (undefined behaviour in C). -/
  | badpointer
  deriving DecidableEq, Repr

/-- How a call ends: normally with a value, or by raising an error.  The state is
kept in both cases. -/
inductive Outcome (α β : Type) where
  | ok (v : β) (L : lua_State α)
  | raise (e : LuaError) (L : lua_State α)
  deriving DecidableEq, Repr

/-- A computation over the host state. -/
def LuaM (α β : Type) : Type := lua_State α → Outcome α β

/-- Sequencing: an error ends the computation. -/
def LuaM.bind {α β γ : Type} (x : LuaM α β) (f : β → LuaM α γ) : LuaM α γ :=
  fun L =>
    match x L with
    | .ok v L1 => f v L1
    | .raise e L1 => .raise e L1

instance {α : Type} : Monad (LuaM α) where
  pure v := fun L => .ok v L
  bind := LuaM.bind

/-- What the host supplies for numbers besides arithmetic. -/
structure Host (α : Type) where
  /-- String to number conversion used by `lua_tonumber` (`lua_str2number`). -/
  str2d : String → Option α
  /-- Conversion `cast_num` of a `lua_Integer` to a `lua_Number`. -/
  cast_num : Int → α
  /-- Text `lua_pushfstring` produces for a `%f` argument. -/
  fmt : α → String

/-! ## The Lua C API used by the source -/

section api

variable {α : Type}

/-- Value at an acceptable stack index (positive: from the bottom, negative: from
the top), `none` when the index is not a valid slot. -/
def index2adr (L : lua_State α) (idx : Int) : Option (TValue α) :=
  if 0 < idx then L.stack[idx.toNat - 1]?
  else if idx < 0 ∧ (-idx).toNat ≤ L.stack.length then
    L.stack[L.stack.length - (-idx).toNat]?
  else none

/-- Number of elements in the stack frame: `lua_gettop`. -/
def lua_gettop (L : lua_State α) : Nat := L.stack.length

/-- Block address of a full userdata, pointer of a light userdata, `NULL` (`none`)
otherwise: `lua_touserdata`. -/
def lua_touserdata (L : lua_State α) (idx : Int) : Option Nat :=
  match index2adr L idx with
  | some (.userdata p) => some p
  | some (.lightuserdata p) => some p
  | _ => none

/-- Metatable of the value at the index, if it has one: `lua_getmetatable`. -/
def lua_getmetatable (L : lua_State α) (idx : Int) : Option Nat :=
  match index2adr L idx with
  | some (.userdata p) =>
    match L.memory[p]? with
    | some u => u.metatable
    | none => none
  | _ => none

/-- Registry field `tname`, `nil` when absent: `lua_getfield(L, LUA_REGISTRYINDEX, tname)`. -/
def registry_get (L : lua_State α) (tname : String) : TValue α :=
  match L.registry.lookup tname with
  | some v => v
  | none => .nil

/-- Raise the error of `luaL_typerror`. -/
def luaL_typerror {β : Type} (narg : Int) (tname : String) : LuaM α β :=
  fun L => .raise (.typerror narg tname) L

/-- Check that the argument is a userdata whose metatable is the one registered
under `tname`, and return its block address: `luaL_checkudata`. -/
def luaL_checkudata (ud : Int) (tname : String) : LuaM α Nat :=
  fun L =>
    match lua_touserdata L ud with
    | some p =>
      match lua_getmetatable L ud with
      | some mt =>
        match registry_get L tname with
        | .table t => if t = mt then .ok p L else luaL_typerror ud tname L
        | _ => luaL_typerror ud tname L
      | none => luaL_typerror ud tname L
    | none => luaL_typerror ud tname L

/-- Convert the value at the index to a number: `lua_tonumber` together with
`lua_isnumber` (`none` when the value is neither a number nor a convertible
string). -/
def lua_tonumber (H : Host α) (L : lua_State α) (idx : Int) : Option α :=
  match index2adr L idx with
  | some (.number n) => some n
  | some (.string s) => H.str2d s
  | _ => none

/-- Check that the argument is a number and return it: `luaL_checknumber`. -/
def luaL_checknumber (H : Host α) (narg : Int) : LuaM α α :=
  fun L =>
    match lua_tonumber H L narg with
    | some d => .ok d L
    | none => luaL_typerror narg "number" L

/-- Push a value on the stack. -/
def push (v : TValue α) : LuaM α Unit :=
  fun L => .ok () { L with stack := L.stack ++ [v] }

/-- Allocate a block with indeterminate contents and no metatable, push the full
userdata and return the block address: `lua_newuserdata`. -/
def lua_newuserdata : LuaM α Nat :=
  fun L =>
    .ok L.memory.length
      { L with
        memory := L.memory ++ [{ metatable := none, contents := none }]
        stack := L.stack ++ [.userdata L.memory.length] }

/-- Push the metatable registered under `tname` (or `nil`): `luaL_getmetatable`. -/
def luaL_getmetatable (tname : String) : LuaM α Unit :=
  fun L => push (registry_get L tname) L

/-- Metatable a stack value denotes when handed to `lua_setmetatable`: the table,
or none for `nil`. -/
def asMetatable : TValue α → Option Nat
  | .table t => some t
  | _ => none

/-- Pop a table (or `nil`) and make it the metatable of the userdata at the index:
`lua_setmetatable`. -/
def lua_setmetatable (objindex : Int) : LuaM α Unit :=
  fun L =>
    let mt : Option Nat := L.stack.getLast?.bind asMetatable
    let memory :=
      match index2adr L objindex with
      | some (.userdata p) => L.memory.modify (fun u => { u with metatable := mt }) p
      | _ => L.memory
    .ok () { L with stack := L.stack.dropLast, memory := memory }

/-- Read the record a pointer points to: `*p`. -/
def load (p : Nat) : LuaM α (S_COMPLEX α) :=
  fun L =>
    match L.memory[p]? with
    | some { metatable := _, contents := some z } => .ok z L
    | _ => .raise .badpointer L

/-- Write a record through a pointer: `*p = z`. -/
def store (p : Nat) (z : S_COMPLEX α) : LuaM α Unit :=
  fun L =>
    if p < L.memory.length then
      .ok () { L with memory := L.memory.modify (fun u => { u with contents := some z }) p }
    else .raise .badpointer L

/-- Push a number: `lua_pushnumber`. -/
def lua_pushnumber (n : α) : LuaM α Unit := push (.number n)

/-- Push an integer, converted to a number: `lua_pushinteger`. -/
def lua_pushinteger (H : Host α) (n : Int) : LuaM α Unit := push (.number (H.cast_num n))

/-- Push a string. -/
def lua_pushstring (s : String) : LuaM α Unit := push (.string s)

/-- Raise an error with a message: `luaL_error`. -/
def luaL_error {β : Type} (msg : String) : LuaM α β :=
  fun L => .raise (.error msg) L

end api

/-! ## The module: `src/lcomplex.cpp` -/

section module

variable {α : Type}

/-- Verify that the object at `idx` is an `S_COMPLEX` and return the pointer to it. -/
def lua_checkcomplex (idx : Int) : LuaM α Nat :=
  luaL_checkudata idx LUA_COMPLEX

/-- Push an `S_COMPLEX` on the stack: allocate a block, assign the metatable, assign
the value, report one pushed element. -/
def lua_pushcomplex (complex : S_COMPLEX α) : LuaM α Nat := do
  let pComplex ← lua_newuserdata
  luaL_getmetatable LUA_COMPLEX
  lua_setmetatable (-2)
  store pComplex complex
  return 1

/-- Create an `S_COMPLEX` from two doubles: `COMPLEX.new(re, im)`. -/
def lua_complex_new (H : Host α) : LuaM α Nat := do
  let re ← luaL_checknumber H 1
  let im ← luaL_checknumber H 2
  let complex : S_COMPLEX α := ⟨re, im⟩
  lua_pushcomplex complex

/-- Convert a complex to a string. -/
def lua_complex_tostring (H : Host α) : LuaM α Nat := do
  let complex ← lua_checkcomplex 1
  let z ← load complex
  lua_pushstring ("\x7b" ++ H.fmt z.re ++ "," ++ H.fmt z.im ++ "\x7d")
  return 1

/-- Add two complex values. -/
def lua_complex_add [Add α] : LuaM α Nat := do
  let a ← lua_checkcomplex 1
  let b ← lua_checkcomplex 2
  let a ← load a
  let b ← load b
  let sum : S_COMPLEX α := ⟨a.re + b.re, a.im + b.im⟩
  lua_pushcomplex sum

/-- Subtract two complex values. -/
def lua_complex_sub [Sub α] : LuaM α Nat := do
  let a ← lua_checkcomplex 1
  let b ← lua_checkcomplex 2
  let a ← load a
  let b ← load b
  let dif : S_COMPLEX α := ⟨a.re - b.re, a.im - b.im⟩
  lua_pushcomplex dif

/-- Multiply two complex values. -/
def lua_complex_mul [Add α] [Sub α] [Mul α] : LuaM α Nat := do
  let z1 ← lua_checkcomplex 1
  let z2 ← lua_checkcomplex 2
  let z1 ← load z1
  let z2 ← load z2
  let a := z1.re
  let b := z1.im
  let c := z2.re
  let d := z2.im
  let prod : S_COMPLEX α := ⟨a * c - b * d, a * d + b * c⟩
  lua_pushcomplex prod

/-- Divide two complex values. -/
def lua_complex_div [Add α] [Sub α] [Mul α] [Div α] : LuaM α Nat := do
  let z1 ← lua_checkcomplex 1
  let z2 ← lua_checkcomplex 2
  let z1 ← load z1
  let z2 ← load z2
  let a := z1.re
  let b := z1.im
  let c := z2.re
  let d := z2.im
  let ccdd := c * c + d * d
  let quot : S_COMPLEX α := ⟨(a * c + b * d) / ccdd, (b * c - a * d) / ccdd⟩
  lua_pushcomplex quot

/-- The function registered as `abs`: pushes `a*a+b*b`. -/
def lua_complex_abs [Add α] [Mul α] : LuaM α Nat := do
  let z1 ← lua_checkcomplex 1
  let z1 ← load z1
  let a := z1.re
  let b := z1.im
  lua_pushnumber (a * a + b * b)
  return 1

/-- Raw copy `*self = *from` of the block at `src` into the block at `dst`. -/
def copy_block (dst src : Option Nat) : LuaM α Unit :=
  fun L =>
    match dst, src with
    | some d, some s =>
      match L.memory[s]? with
      | some u =>
        if d < L.memory.length then
          .ok () { L with memory := L.memory.modify (fun v => { v with contents := u.contents }) d }
        else .raise .badpointer L
      | none => .raise .badpointer L
    | _, _ => .raise .badpointer L

/-- The hook used to clone objects via lanes/linda. -/
def lua_complex_lanesclone (H : Host α) : LuaM α Nat :=
  fun L =>
    match lua_gettop L with
    | 0 => (do lua_pushinteger H sizeof_S_COMPLEX; return 1) L
    | 2 =>
      (do
        let self := lua_touserdata L 1
        let src := lua_touserdata L 2
        copy_block self src
        return 0) L
    | _ => luaL_error "Lanes called clonable_lanesclone with unexpected parameters" L

/-- The finalizer: reads the pointer and does nothing with it. -/
def lua_complex_gc : LuaM α Nat :=
  fun L =>
    let _self := lua_touserdata L 1
    .ok 0 L

/-- The functions set into the metatable of `S_COMPLEX`. -/
def complex_mt [Add α] [Sub α] [Mul α] [Div α] (H : Host α) : List (String × LuaM α Nat) :=
  [("tostring", lua_complex_tostring H),
   ("__tostring", lua_complex_tostring H),
   ("__add", lua_complex_add),
   ("__sub", lua_complex_sub),
   ("__mul", lua_complex_mul),
   ("__div", lua_complex_div),
   ("abs", lua_complex_abs),
   ("__lanesclone", lua_complex_lanesclone H),
   ("__gc", lua_complex_gc)]

/-- The functions set into the module. -/
def complexlib (H : Host α) : List (String × LuaM α Nat) :=
  [("new", lua_complex_new H)]

end module

/-! ## The C type `double`: IEEE-754 binary64, round to nearest, ties to even

A finite value is `(-1)^neg * m * 2^e`.  The operations below return finite values
in the unique form a binary64 datum encodes: `m < 2^53`, `-1074 ≤ e ≤ 971`, and
`2^52 ≤ m` unless `e = -1074` (subnormals and zero).  All NaNs are identified. -/

/-- A binary64 datum. -/
inductive F64 where
  | nan
  | inf (neg : Bool)
  | fin (neg : Bool) (m : Nat) (e : Int)
  deriving DecidableEq, Repr

namespace F64

/-- Number of binary digits of `m`, computed with `fuel` halvings at most. -/
def bitlen : Nat → Nat → Nat
  | 0, _ => 0
  | fuel + 1, m => if m = 0 then 0 else bitlen fuel (m / 2) + 1

/-- The integer nearest to `m / 2^k`, ties going to the even one. -/
def shiftRound (m k : Nat) : Nat :=
  let q := m / 2 ^ k
  let r := m % 2 ^ k
  let half := 2 ^ (k - 1)
  if half < r ∨ (r = half ∧ q % 2 = 1) then q + 1 else q

/-- Round the exact value `(-1)^neg * m * 2^e` to binary64: keep 53 significant
bits (fewer below `2^-1022`), round to nearest with ties to even, overflow to
infinity.  `t` is the exponent of the last bit kept. -/
def round (neg : Bool) (m : Nat) (e : Int) : F64 :=
  if m = 0 then .fin neg 0 (-1074)
  else
    let t : Int := max (e + (bitlen m m : Int) - 53) (-1074)
    if t ≤ e then
      if 971 < t then .inf neg else .fin neg (m * 2 ^ (e - t).toNat) t
    else
      let q := shiftRound m (t - e).toNat
      if q = 2 ^ 53 then
        if 971 < t + 1 then .inf neg else .fin neg (2 ^ 52) (t + 1)
      else
        if 971 < t then .inf neg else .fin neg q t

/-- Unary minus. -/
def neg : F64 → F64
  | nan => nan
  | inf s => inf (!s)
  | fin s m e => fin (!s) m e

/-- The integer `(-1)^s * m`. -/
def signed (s : Bool) (m : Nat) : Int := if s then -(m : Int) else (m : Int)

/-- Addition: `x + y`. -/
def add : F64 → F64 → F64
  | nan, _ => nan
  | _, nan => nan
  | inf s, inf t => if s = t then inf s else nan
  | inf s, fin _ _ _ => inf s
  | fin _ _ _, inf t => inf t
  | fin s m e, fin t n f =>
    let g := min e f
    let c := signed s (m * 2 ^ (e - g).toNat) + signed t (n * 2 ^ (f - g).toNat)
    if c = 0 then fin (s && t) 0 (-1074)
    else round (decide (c < 0)) c.natAbs g

/-- Subtraction: `x - y`. -/
def sub (x y : F64) : F64 := add x (neg y)

/-- Multiplication: `x * y`. -/
def mul : F64 → F64 → F64
  | nan, _ => nan
  | _, nan => nan
  | inf s, inf t => inf (xor s t)
  | inf s, fin t n _ => if n = 0 then nan else inf (xor s t)
  | fin s m _, inf t => if m = 0 then nan else inf (xor s t)
  | fin s m e, fin t n f => round (xor s t) (m * n) (e + f)

/-- Division: `x / y`.  The quotient of the significands is taken with 128 extra
bits; a nonzero remainder is recorded in one further low bit, which is below the
rounding position. -/
def div : F64 → F64 → F64
  | nan, _ => nan
  | _, nan => nan
  | inf _, inf _ => nan
  | inf s, fin t _ _ => inf (xor s t)
  | fin s _ _, inf t => fin (xor s t) 0 (-1074)
  | fin s m e, fin t n f =>
    if n = 0 then (if m = 0 then nan else inf (xor s t))
    else
      let q := (m * 2 ^ 128) / n
      let r := (m * 2 ^ 128) % n
      round (xor s t) (2 * q + (if r = 0 then 0 else 1)) (e - f - 129)

instance : Add F64 := ⟨add⟩
instance : Sub F64 := ⟨sub⟩
instance : Mul F64 := ⟨mul⟩
instance : Div F64 := ⟨div⟩
instance : Neg F64 := ⟨neg⟩

/-- The double nearest to an integer. -/
def ofInt (n : Int) : F64 := round (decide (n < 0)) n.natAbs 0

/-- The double nearest to the decimal `n / 10^k`, as a decimal literal denotes it
(for `n` and `10^k` below `2^53`). -/
def ofDecimal (n : Int) (k : Nat) : F64 := div (ofInt n) (ofInt (10 ^ k))

/-- The rational `(-1)^s * m * 2^e`. -/
def value (s : Bool) (m : Nat) (e : Int) : ℚ := (if s then -1 else 1) * (m : ℚ) * (2 : ℚ) ^ e

/-- Whether the datum is a finite number. -/
def isFinite : F64 → Bool
  | fin _ _ _ => true
  | _ => false

/-- The rational a finite datum stands for, 0 for infinities and NaN. -/
def num : F64 → ℚ
  | fin s m e => value s m e
  | _ => 0

/-- The datum `r` is the finite number `v`: said of the result of an operation, it
was carried out without overflow and without rounding error when `v` is the exact
result. -/
def Exact (r : F64) (v : ℚ) : Prop := r.isFinite = true ∧ r.num = v

instance (r : F64) (v : ℚ) : Decidable (Exact r v) :=
  inferInstanceAs (Decidable (r.isFinite = true ∧ r.num = v))

/-- The sum `x + y` is computed without overflow or rounding error. -/
def ExactAdd (x y : F64) : Prop := Exact (x + y) (x.num + y.num)

/-- The difference `x - y` is computed without overflow or rounding error. -/
def ExactSub (x y : F64) : Prop := Exact (x - y) (x.num - y.num)

/-- The product `x * y` is computed without overflow or rounding error. -/
def ExactMul (x y : F64) : Prop := Exact (x * y) (x.num * y.num)

/-- The datum is one that binary64 encodes. -/
def Canonical : F64 → Prop
  | fin _ m e => m < 2 ^ 53 ∧ -1074 ≤ e ∧ e ≤ 971 ∧ (e = -1074 ∨ 2 ^ 52 ≤ m)
  | _ => True

end F64

/-! ## Reading a state -/

section reading

variable {α : Type}

/-- State a call leaves behind, whether it returned or raised. -/
def Outcome.state {β : Type} : Outcome α β → lua_State α
  | .ok _ L => L
  | .raise _ L => L

/-- The value in a slot is a full userdata whose block carries the metatable
registered under `LUA_COMPLEX`: an allocation stamped with the type marker. -/
def Stamped (L : lua_State α) (v : Option (TValue α)) : Prop :=
  ∃ p u mt, v = some (.userdata p) ∧ L.memory[p]? = some u ∧ u.metatable = some mt ∧
    registry_get L LUA_COMPLEX = .table mt

/-- Block `p` is a ComplexNumber instance holding the record `z`: it carries the
metatable registered under `LUA_COMPLEX` and its contents are `z`. -/
def IsInstance (L : lua_State α) (p : Nat) (z : S_COMPLEX α) : Prop :=
  ∃ mt, L.memory[p]? = some ⟨some mt, some z⟩ ∧ registry_get L LUA_COMPLEX = .table mt

/-- Every ComplexNumber instance that exists before a call of `f` holds the same
record after the call, however the call ends. -/
def Immutable (f : LuaM α Nat) : Prop :=
  ∀ (L : lua_State α) (p : Nat) (z : S_COMPLEX α), IsInstance L p z → IsInstance (f L).state p z

/-- From `L` to `L1` the registry is the same and memory only grew: every block of
`L` is still there, unchanged. -/
def Keeps (L L1 : lua_State α) : Prop :=
  L1.registry = L.registry ∧ ∃ ext, L1.memory = L.memory ++ ext

/-- A computation that only ever adds blocks. -/
def Frame {β : Type} (x : LuaM α β) : Prop := ∀ L, Keeps L (x L).state

end reading

/-! ## Sample states -/

/-- A host for `F64`: strings that spell a decimal integer convert to that
number, integers convert by rounding. -/
def sampleHost : Host F64 where
  str2d s := s.toInt?.map F64.ofInt
  cast_num := F64.ofInt
  fmt _ := "?"

/-- The record of `COMPLEX.new(1.2,3.4)`. -/
def sampleA : S_COMPLEX F64 := ⟨F64.ofDecimal 12 1, F64.ofDecimal 34 1⟩

/-- The record of `COMPLEX.new(5.6,7.8)`. -/
def sampleC : S_COMPLEX F64 := ⟨F64.ofDecimal 56 1, F64.ofDecimal 78 1⟩

/-- A state after the module was loaded (metatable 7 registered), with
`COMPLEX.new(1.2,3.4)` and `COMPLEX.new(5.6,7.8)` as the two arguments. -/
def sampleState : lua_State F64 where
  stack := [.userdata 0, .userdata 1]
  memory := [⟨some 7, some sampleA⟩, ⟨some 7, some sampleC⟩]
  registry := [(LUA_COMPLEX, .table 7)]

/-- The same state with another stack frame. -/
def withArgs {α : Type} (L : lua_State α) (args : List (TValue α)) : lua_State α :=
  { L with stack := args }

/-- The frame of `COMPLEX.new(1.2,-3.4)` in a state where the module is loaded and
nothing is allocated yet. -/
def newState : lua_State F64 where
  stack := [.number (F64.ofDecimal 12 1), .number (F64.ofDecimal (-34) 1)]
  memory := []
  registry := [(LUA_COMPLEX, .table 7)]

/-- The frame of the clone hook as the lanes library calls it: two raw pointers, the
destination a fresh block, the source the record `sampleA`. -/
def cloneState : lua_State F64 where
  stack := [.lightuserdata 1, .lightuserdata 0]
  memory := [⟨some 7, some sampleA⟩, ⟨none, none⟩]
  registry := [(LUA_COMPLEX, .table 7)]

/-- A frame whose first argument is a plain number. -/
def numberFirst : lua_State F64 := withArgs sampleState [.number (F64.ofInt 3), .userdata 1]

/-- A frame whose first argument is a ComplexNumber and whose second is a string. -/
def stringSecond : lua_State F64 := withArgs sampleState [.userdata 0, .string "5.6"]

/-- Two ComplexNumbers `(2^1023, 0)` as the arguments: both finite, their sum is
not. -/
def hugeState : lua_State F64 where
  stack := [.userdata 0, .userdata 1]
  memory := [⟨some 7, some ⟨.fin false (2 ^ 52) 971, .fin false 0 (-1074)⟩⟩,
             ⟨some 7, some ⟨.fin false (2 ^ 52) 971, .fin false 0 (-1074)⟩⟩]
  registry := [(LUA_COMPLEX, .table 7)]

/-- The ComplexNumbers `(2^1000, 0)` and `(2^100, 0)` as the arguments: both finite,
the second of squared magnitude `2^200`. -/
def hugeProductState : lua_State F64 where
  stack := [.userdata 0, .userdata 1]
  memory := [⟨some 7, some ⟨.fin false (2 ^ 52) 948, .fin false 0 (-1074)⟩⟩,
             ⟨some 7, some ⟨.fin false (2 ^ 52) 48, .fin false 0 (-1074)⟩⟩]
  registry := [(LUA_COMPLEX, .table 7)]

/-- The record `(1, 2)`. -/
def smallA : S_COMPLEX F64 := ⟨F64.ofInt 1, F64.ofInt 2⟩

/-- The record `(3, 4)`. -/
def smallB : S_COMPLEX F64 := ⟨F64.ofInt 3, F64.ofInt 4⟩

/-- The ComplexNumbers `(1, 2)` and `(3, 4)` allocated, module loaded. -/
def smallState : lua_State F64 where
  stack := []
  memory := [⟨some 7, some smallA⟩, ⟨some 7, some smallB⟩]
  registry := [(LUA_COMPLEX, .table 7)]

/-! ## Lemmas about the host API -/

section lemmas

variable {α : Type}

theorem bind_apply {β γ : Type} (x : LuaM α β) (f : β → LuaM α γ) (L : lua_State α) :
    (x >>= f) L = match x L with
      | .ok v L1 => f v L1
      | .raise e L1 => .raise e L1 := rfl

theorem pure_apply {β : Type} (v : β) (L : lua_State α) :
    (pure v : LuaM α β) L = .ok v L := rfl

theorem modify_length_append {β : Type} (f : β → β) (m : List β) (a : β) :
    List.modify f m.length (m ++ [a]) = m ++ [f a] := by
  induction m with
  | nil => rfl
  | cons x xs ih => simp [List.modify_succ_cons, ih]

theorem lua_pushcomplex_eq (z : S_COMPLEX α) (L : lua_State α) :
    lua_pushcomplex z L =
      .ok 1 ⟨L.stack ++ [.userdata L.memory.length],
             L.memory ++ [⟨asMetatable (registry_get L LUA_COMPLEX), some z⟩],
             L.registry⟩ := by
  obtain ⟨s, m, r⟩ := L
  simp only [lua_pushcomplex, bind_apply, lua_newuserdata, luaL_getmetatable, push,
    lua_setmetatable, store, pure_apply, registry_get]
  simp [index2adr, List.getElem_append_right, modify_length_append]

theorem lua_checkcomplex_of_stamped (L : lua_State α) (idx : Int) (p : Nat)
    (hv : index2adr L idx = some (.userdata p)) (hs : Stamped L (index2adr L idx)) :
    lua_checkcomplex idx L = .ok p L := by
  obtain ⟨q, u, mt, hq, hu, hmt, hr⟩ := hs
  rw [hv] at hq
  cases hq
  simp [lua_checkcomplex, luaL_checkudata, lua_touserdata, lua_getmetatable, hv, hu, hmt, hr]

theorem lua_checkcomplex_of_not_stamped (L : lua_State α) (idx : Int)
    (hs : ¬ Stamped L (index2adr L idx)) :
    lua_checkcomplex idx L = .raise (.typerror idx LUA_COMPLEX) L := by
  simp only [lua_checkcomplex, luaL_checkudata, lua_touserdata, lua_getmetatable, luaL_typerror]
  cases hv : index2adr L idx with
  | none => rfl
  | some v =>
    cases v with
    | userdata q =>
      cases hu : L.memory[q]? with
      | none => simp [hu]
      | some u =>
        cases hmt : u.metatable with
        | none => simp [hu, hmt]
        | some mt =>
          cases hr : registry_get L LUA_COMPLEX with
          | table t =>
            by_cases htm : t = mt
            · exact absurd ⟨q, u, mt, hv, hu, hmt, htm ▸ hr⟩ hs
            · simp [hu, hmt, htm]
          | _ => simp [hu, hmt]
    | _ => rfl

theorem lua_checkcomplex_ok (L L1 : lua_State α) (idx : Int) (p : Nat)
    (h : lua_checkcomplex idx L = .ok p L1) :
    L1 = L ∧ index2adr L idx = some (.userdata p) ∧ Stamped L (index2adr L idx) := by
  by_cases hs : Stamped L (index2adr L idx)
  · obtain ⟨q, u, mt, hq, hu, hmt, hr⟩ := hs
    have h2 := lua_checkcomplex_of_stamped L idx q hq ⟨q, u, mt, hq, hu, hmt, hr⟩
    rw [h2] at h
    cases h
    exact ⟨rfl, hq, ⟨_, u, mt, hq, hu, hmt, hr⟩⟩
  · rw [lua_checkcomplex_of_not_stamped L idx hs] at h
    cases h


theorem lua_checkcomplex_cases (L : lua_State α) (idx : Int) :
    (∃ p, lua_checkcomplex idx L = .ok p L) ∨
      lua_checkcomplex idx L = .raise (.typerror idx LUA_COMPLEX) L := by
  by_cases hs : Stamped L (index2adr L idx)
  · obtain ⟨q, u, mt, hq, hu, hmt, hr⟩ := hs
    exact Or.inl ⟨q, lua_checkcomplex_of_stamped L idx q hq ⟨q, u, mt, hq, hu, hmt, hr⟩⟩
  · exact Or.inr (lua_checkcomplex_of_not_stamped L idx hs)

theorem load_cases (L : lua_State α) (p : Nat) :
    (∃ z, load p L = .ok z L) ∨ load p L = .raise .badpointer L := by
  unfold load
  cases hu : L.memory[p]? with
  | none => exact Or.inr rfl
  | some u =>
    obtain ⟨mt, c⟩ := u
    cases c with
    | none => exact Or.inr rfl
    | some z => exact Or.inl ⟨z, rfl⟩

theorem load_ok (L L1 : lua_State α) (p : Nat) (z : S_COMPLEX α) (h : load p L = .ok z L1) :
    L1 = L ∧ ∃ mt, L.memory[p]? = some ⟨mt, some z⟩ := by
  unfold load at h
  cases hu : L.memory[p]? with
  | none => simp [hu] at h
  | some u =>
    obtain ⟨mt, c⟩ := u
    cases c with
    | none => simp [hu] at h
    | some w =>
      simp only [hu] at h
      cases h
      exact ⟨rfl, mt, rfl⟩

theorem registry_of_checked (L : lua_State α) (idx : Int) (p : Nat)
    (h : lua_checkcomplex idx L = .ok p L) :
    ∃ mt, registry_get L LUA_COMPLEX = .table mt := by
  obtain ⟨_, _, _, _, mt, _, _, _, hr⟩ := lua_checkcomplex_ok L L idx p h
  exact ⟨mt, hr⟩

/-- The state `lua_pushcomplex` leaves when the metatable is registered: the pushed
value passes the check and holds the record. -/
theorem pushed_is_complex (L : lua_State α) (mt : Nat) (z : S_COMPLEX α)
    (hr : registry_get L LUA_COMPLEX = .table mt) :
    ∃ L1 : lua_State α,
      lua_pushcomplex z L = .ok 1 L1 ∧
      L1.stack = L.stack ++ [.userdata L.memory.length] ∧
      L1.memory = L.memory ++ [⟨some mt, some z⟩] ∧
      L1.registry = L.registry ∧
      lua_checkcomplex (-1) L1 = .ok L.memory.length L1 ∧
      load L.memory.length L1 = .ok z L1 := by
  refine ⟨_, lua_pushcomplex_eq z L, rfl, by simp [hr, asMetatable], rfl, ?_, ?_⟩
  · apply lua_checkcomplex_of_stamped
    · simp [index2adr]
    · refine ⟨L.memory.length, ⟨some mt, some z⟩, mt, ?_, ?_, rfl, ?_⟩
      · simp [index2adr]
      · simp [hr, asMetatable]
      · simpa [registry_get] using hr
  · simp [load, hr, asMetatable]

theorem copy_block_cases (dst src : Option Nat) (L : lua_State α) :
    (∃ L1, copy_block dst src L = .ok () L1) ∨ copy_block dst src L = .raise .badpointer L := by
  unfold copy_block
  cases dst with
  | none => exact Or.inr rfl
  | some d =>
    cases src with
    | none => exact Or.inr rfl
    | some s =>
      cases hu : L.memory[s]? with
      | none => exact Or.inr (by simp [hu])
      | some u =>
        by_cases hd : d < L.memory.length
        · exact Or.inl ⟨{ L with memory := L.memory.modify (fun v => { v with contents := u.contents }) d },
            by simp [hu, hd]⟩
        · exact Or.inr (by simp [hu, hd])

theorem keeps_refl (L : lua_State α) : Keeps L L := ⟨rfl, [], by simp⟩

theorem keeps_trans {L L1 L2 : lua_State α} (h1 : Keeps L L1) (h2 : Keeps L1 L2) : Keeps L L2 := by
  obtain ⟨r1, e1, m1⟩ := h1
  obtain ⟨r2, e2, m2⟩ := h2
  exact ⟨r2.trans r1, e1 ++ e2, by rw [m2, m1, List.append_assoc]⟩

theorem keeps_instance {L L1 : lua_State α} (h : Keeps L L1) (p : Nat) (z : S_COMPLEX α)
    (hi : IsInstance L p z) : IsInstance L1 p z := by
  obtain ⟨hr, ext, hm⟩ := h
  obtain ⟨mt, hb, hreg⟩ := hi
  refine ⟨mt, ?_, ?_⟩
  · have hlt : p < L.memory.length := by
      by_contra hc
      rw [List.getElem?_eq_none (by omega)] at hb
      cases hb
    rw [hm, List.getElem?_append_left hlt]
    exact hb
  · simpa [registry_get, hr] using hreg

theorem frame_bind {β γ : Type} {x : LuaM α β} {f : β → LuaM α γ}
    (hx : Frame x) (hf : ∀ v, Frame (f v)) : Frame (x >>= f) := by
  intro L
  have h := hx L
  rw [bind_apply]
  cases hxl : x L with
  | ok v L1 =>
    rw [hxl] at h
    exact keeps_trans h (hf v L1)
  | raise e L1 =>
    rw [hxl] at h
    exact h

theorem frame_pure {β : Type} (v : β) : Frame (pure v : LuaM α β) := fun L => keeps_refl L

theorem frame_checkcomplex (idx : Int) : Frame (lua_checkcomplex idx : LuaM α Nat) := by
  intro L
  rcases lua_checkcomplex_cases L idx with ⟨p, h⟩ | h <;> rw [h] <;> exact keeps_refl L

theorem frame_load (p : Nat) : Frame (load p : LuaM α (S_COMPLEX α)) := by
  intro L
  rcases load_cases L p with ⟨z, h⟩ | h <;> rw [h] <;> exact keeps_refl L

theorem frame_checknumber (H : Host α) (narg : Int) : Frame (luaL_checknumber H narg) := by
  intro L
  unfold luaL_checknumber
  cases lua_tonumber H L narg <;> exact keeps_refl L

theorem frame_push (v : TValue α) : Frame (push v) := fun L => ⟨rfl, [], by simp [push, Outcome.state]⟩

theorem frame_pushcomplex (z : S_COMPLEX α) : Frame (lua_pushcomplex z) := by
  intro L
  rw [lua_pushcomplex_eq]
  exact ⟨rfl, _, rfl⟩

theorem frame_add [Add α] : Frame (lua_complex_add : LuaM α Nat) :=
  frame_bind (frame_checkcomplex 1) fun _ => frame_bind (frame_checkcomplex 2) fun _ =>
    frame_bind (frame_load _) fun _ => frame_bind (frame_load _) fun _ => frame_pushcomplex _

theorem frame_sub [Sub α] : Frame (lua_complex_sub : LuaM α Nat) :=
  frame_bind (frame_checkcomplex 1) fun _ => frame_bind (frame_checkcomplex 2) fun _ =>
    frame_bind (frame_load _) fun _ => frame_bind (frame_load _) fun _ => frame_pushcomplex _

theorem frame_mul [Add α] [Sub α] [Mul α] : Frame (lua_complex_mul : LuaM α Nat) :=
  frame_bind (frame_checkcomplex 1) fun _ => frame_bind (frame_checkcomplex 2) fun _ =>
    frame_bind (frame_load _) fun _ => frame_bind (frame_load _) fun _ => frame_pushcomplex _

theorem frame_div [Add α] [Sub α] [Mul α] [Div α] : Frame (lua_complex_div : LuaM α Nat) :=
  frame_bind (frame_checkcomplex 1) fun _ => frame_bind (frame_checkcomplex 2) fun _ =>
    frame_bind (frame_load _) fun _ => frame_bind (frame_load _) fun _ => frame_pushcomplex _

theorem frame_abs [Add α] [Mul α] : Frame (lua_complex_abs : LuaM α Nat) :=
  frame_bind (frame_checkcomplex 1) fun _ => frame_bind (frame_load _) fun _ =>
    frame_bind (frame_push _) fun _ => frame_pure _

theorem frame_tostring (H : Host α) : Frame (lua_complex_tostring H) :=
  frame_bind (frame_checkcomplex 1) fun _ => frame_bind (frame_load _) fun _ =>
    frame_bind (frame_push _) fun _ => frame_pure _

theorem frame_new (H : Host α) : Frame (lua_complex_new H) :=
  frame_bind (frame_checknumber H 1) fun _ => frame_bind (frame_checknumber H 2) fun _ =>
    frame_pushcomplex _

theorem frame_gc : Frame (lua_complex_gc : LuaM α Nat) := fun L => keeps_refl L

theorem lanesclone_others (H : Host α) (L : lua_State α) (p : Nat)
    (h : lua_gettop L ≠ 2 ∨ lua_touserdata L 1 ≠ some p) :
    (lua_complex_lanesclone H L).state.memory[p]? = L.memory[p]? ∧
      (lua_complex_lanesclone H L).state.registry = L.registry := by
  obtain ⟨s, m, r⟩ := L
  match s with
  | [] =>
    simp [lua_complex_lanesclone, lua_gettop, bind_apply, pure_apply, lua_pushinteger, push,
      Outcome.state]
  | [_] => simp [lua_complex_lanesclone, lua_gettop, luaL_error, Outcome.state]
  | _ :: _ :: _ :: _ => simp [lua_complex_lanesclone, lua_gettop, luaL_error, Outcome.state]
  | [x, y] =>
    have hne : lua_touserdata ⟨[x, y], m, r⟩ 1 ≠ some p := by
      rcases h with h | h
      · exact absurd rfl h
      · exact h
    simp only [lua_complex_lanesclone, lua_gettop, List.length_cons, List.length_nil,
      bind_apply, pure_apply, copy_block]
    cases hd : lua_touserdata ⟨[x, y], m, r⟩ 1 with
    | none => simp [Outcome.state]
    | some d =>
      have hdp : d ≠ p := fun e => hne (by rw [hd, e])
      cases hs : lua_touserdata ⟨[x, y], m, r⟩ 2 with
      | none => simp [Outcome.state]
      | some q =>
        cases hu : m[q]? with
        | none => simp [Outcome.state, hu]
        | some u =>
          by_cases hlt : d < m.length
          · simp [Outcome.state, hu, hlt, List.getElem?_modify_ne _ _ hdp]
          · simp [Outcome.state, hu, hlt]

theorem bind_ok {β γ : Type} {x : LuaM α β} {f : β → LuaM α γ} {L L2 : lua_State α} {n : γ}
    (h : (x >>= f) L = .ok n L2) : ∃ v L1, x L = .ok v L1 ∧ f v L1 = .ok n L2 := by
  rw [bind_apply] at h
  cases hx : x L with
  | ok v L1 =>
    rw [hx] at h
    exact ⟨v, L1, rfl, h⟩
  | raise e L1 =>
    rw [hx] at h
    cases h

theorem luaL_checknumber_ok (H : Host α) (narg : Int) (L L1 : lua_State α) (d : α)
    (h : luaL_checknumber H narg L = .ok d L1) : L1 = L := by
  unfold luaL_checknumber at h
  cases ht : lua_tonumber H L narg with
  | none => simp [ht, luaL_typerror] at h
  | some v =>
    simp only [ht] at h
    cases h
    rfl

theorem lua_pushcomplex_ok (z : S_COMPLEX α) (L L1 : lua_State α) (n : Nat)
    (h : lua_pushcomplex z L = .ok n L1) :
    n = 1 ∧ L1.stack = L.stack ++ [.userdata L.memory.length] ∧
      L.memory[L.memory.length]? = none := by
  rw [lua_pushcomplex_eq] at h
  cases h
  exact ⟨rfl, rfl, by simp⟩

theorem binary_ok {f : S_COMPLEX α → S_COMPLEX α → S_COMPLEX α} (L L1 : lua_State α) (n : Nat)
    (h : (do
      let a ← lua_checkcomplex 1
      let b ← lua_checkcomplex 2
      let a ← load a
      let b ← load b
      lua_pushcomplex (f a b) : LuaM α Nat) L = .ok n L1) :
    n = 1 ∧ L1.stack = L.stack ++ [.userdata L.memory.length] ∧
      L.memory[L.memory.length]? = none := by
  obtain ⟨p1, La, h1, k1⟩ := bind_ok h
  have e1 := (lua_checkcomplex_ok L La 1 p1 h1).1
  subst e1
  obtain ⟨p2, Lb, h2, k2⟩ := bind_ok k1
  have e2 := (lua_checkcomplex_ok _ Lb 2 p2 h2).1
  subst e2
  obtain ⟨a, Lc, h3, k3⟩ := bind_ok k2
  have e3 := (load_ok _ Lc p1 a h3).1
  subst e3
  obtain ⟨b, Ld, h4, k4⟩ := bind_ok k3
  have e4 := (load_ok _ Ld p2 b h4).1
  subst e4
  exact lua_pushcomplex_ok _ _ _ _ k4

theorem new_ok (H : Host α) (L L1 : lua_State α) (n : Nat)
    (h : lua_complex_new H L = .ok n L1) :
    n = 1 ∧ L1.stack = L.stack ++ [.userdata L.memory.length] ∧
      L.memory[L.memory.length]? = none := by
  obtain ⟨re, La, h1, k1⟩ := bind_ok h
  have e1 := luaL_checknumber_ok H 1 L La re h1
  subst e1
  obtain ⟨im, Lb, h2, k2⟩ := bind_ok k1
  have e2 := luaL_checknumber_ok H 2 _ Lb im h2
  subst e2
  exact lua_pushcomplex_ok _ _ _ _ k2

theorem checked_of_instance (L : lua_State α) (args : List (TValue α)) (idx : Int) (p : Nat)
    (z : S_COMPLEX α) (hi : IsInstance L p z)
    (hv : index2adr (withArgs L args) idx = some (.userdata p)) :
    lua_checkcomplex idx (withArgs L args) = .ok p (withArgs L args) ∧
      load p (withArgs L args) = .ok z (withArgs L args) := by
  obtain ⟨mt, hb, hreg⟩ := hi
  constructor
  · apply lua_checkcomplex_of_stamped _ _ _ hv
    rw [hv]
    exact ⟨p, _, mt, rfl, hb, rfl, hreg⟩
  · simp only [load, withArgs]
    rw [hb]

/-- A binary operator that pushes the record `g a c` of its two validated operands,
run on a frame holding two instances. -/
theorem binary_run (op : LuaM α Nat) (g : S_COMPLEX α → S_COMPLEX α → S_COMPLEX α)
    (hop : ∀ (L : lua_State α) (p1 p2 : Nat) (a c : S_COMPLEX α),
      lua_checkcomplex 1 L = .ok p1 L → load p1 L = .ok a L →
      lua_checkcomplex 2 L = .ok p2 L → load p2 L = .ok c L →
      op L = lua_pushcomplex (g a c) L)
    (L : lua_State α) (pa pb : Nat) (a b : S_COMPLEX α)
    (ha : IsInstance L pa a) (hb : IsInstance L pb b) :
    ∃ L1 : lua_State α,
      op (withArgs L [.userdata pa, .userdata pb]) = .ok 1 L1 ∧
      L1.memory.length = L.memory.length + 1 ∧
      IsInstance L1 L.memory.length (g a b) ∧
      (∀ (p : Nat) (z : S_COMPLEX α), IsInstance L p z → IsInstance L1 p z) ∧
      load L.memory.length L1 = .ok (g a b) L1 := by
  obtain ⟨h1, h2⟩ := checked_of_instance L [.userdata pa, .userdata pb] 1 pa a ha rfl
  obtain ⟨h3, h4⟩ := checked_of_instance L [.userdata pa, .userdata pb] 2 pb b hb rfl
  obtain ⟨mt, hreg⟩ := registry_of_checked _ 1 pa h1
  obtain ⟨L1, hp, _, hm, hr, _, hl⟩ :=
    pushed_is_complex (withArgs L [.userdata pa, .userdata pb]) mt (g a b) hreg
  refine ⟨L1, ?_, ?_, ?_, ?_, hl⟩
  · rw [hop _ pa pb a b h1 h2 h3 h4]
    exact hp
  · rw [hm]
    simp [withArgs]
  · refine ⟨mt, ?_, ?_⟩
    · rw [hm]
      simp [withArgs]
    · simpa [registry_get, hr] using hreg
  · intro p z hi
    exact keeps_instance (L := withArgs L [.userdata pa, .userdata pb]) ⟨hr, _, hm⟩ p z hi

theorem add_pushes [Add α] (L : lua_State α) (p1 p2 : Nat) (a c : S_COMPLEX α)
    (h1 : lua_checkcomplex 1 L = .ok p1 L) (ha : load p1 L = .ok a L)
    (h2 : lua_checkcomplex 2 L = .ok p2 L) (hc : load p2 L = .ok c L) :
    lua_complex_add L = lua_pushcomplex ⟨a.re + c.re, a.im + c.im⟩ L := by
  simp only [lua_complex_add, bind_apply, h1, h2, ha, hc]

theorem sub_pushes [Sub α] (L : lua_State α) (p1 p2 : Nat) (a c : S_COMPLEX α)
    (h1 : lua_checkcomplex 1 L = .ok p1 L) (ha : load p1 L = .ok a L)
    (h2 : lua_checkcomplex 2 L = .ok p2 L) (hc : load p2 L = .ok c L) :
    lua_complex_sub L = lua_pushcomplex ⟨a.re - c.re, a.im - c.im⟩ L := by
  simp only [lua_complex_sub, bind_apply, h1, h2, ha, hc]

theorem mul_pushes [Add α] [Sub α] [Mul α] (L : lua_State α) (p1 p2 : Nat) (a c : S_COMPLEX α)
    (h1 : lua_checkcomplex 1 L = .ok p1 L) (ha : load p1 L = .ok a L)
    (h2 : lua_checkcomplex 2 L = .ok p2 L) (hc : load p2 L = .ok c L) :
    lua_complex_mul L =
      lua_pushcomplex ⟨a.re * c.re - a.im * c.im, a.re * c.im + a.im * c.re⟩ L := by
  simp only [lua_complex_mul, bind_apply, h1, h2, ha, hc]

theorem div_pushes [Add α] [Sub α] [Mul α] [Div α] (L : lua_State α) (p1 p2 : Nat)
    (a c : S_COMPLEX α)
    (h1 : lua_checkcomplex 1 L = .ok p1 L) (ha : load p1 L = .ok a L)
    (h2 : lua_checkcomplex 2 L = .ok p2 L) (hc : load p2 L = .ok c L) :
    lua_complex_div L =
      lua_pushcomplex ⟨(a.re * c.re + a.im * c.im) / (c.re * c.re + c.im * c.im),
        (a.im * c.re - a.re * c.im) / (c.re * c.re + c.im * c.im)⟩ L := by
  simp only [lua_complex_div, bind_apply, h1, h2, ha, hc]

/-- Two binary operators run one after the other, the second on the result of the
first and the second operand again. -/
theorem binary_twice (op1 op2 : LuaM α Nat)
    (g1 g2 : S_COMPLEX α → S_COMPLEX α → S_COMPLEX α)
    (hop1 : ∀ (L : lua_State α) (p1 p2 : Nat) (a c : S_COMPLEX α),
      lua_checkcomplex 1 L = .ok p1 L → load p1 L = .ok a L →
      lua_checkcomplex 2 L = .ok p2 L → load p2 L = .ok c L →
      op1 L = lua_pushcomplex (g1 a c) L)
    (hop2 : ∀ (L : lua_State α) (p1 p2 : Nat) (a c : S_COMPLEX α),
      lua_checkcomplex 1 L = .ok p1 L → load p1 L = .ok a L →
      lua_checkcomplex 2 L = .ok p2 L → load p2 L = .ok c L →
      op2 L = lua_pushcomplex (g2 a c) L)
    (L : lua_State α) (pa pb : Nat) (a b : S_COMPLEX α)
    (ha : IsInstance L pa a) (hb : IsInstance L pb b) :
    ∃ L1 L2 : lua_State α,
      op1 (withArgs L [.userdata pa, .userdata pb]) = .ok 1 L1 ∧
      op2 (withArgs L1 [.userdata L.memory.length, .userdata pb]) = .ok 1 L2 ∧
      load L1.memory.length L2 = .ok (g2 (g1 a b) b) L2 := by
  obtain ⟨L1, r1, _, i1, k1, _⟩ := binary_run op1 g1 hop1 L pa pb a b ha hb
  obtain ⟨L2, r2, _, _, _, l2⟩ :=
    binary_run op2 g2 hop2 L1 L.memory.length pb (g1 a b) b i1 (k1 pb b hb)
  exact ⟨L1, L2, r1, r2, l2⟩

end lemmas

/-! ## Lemmas about binary64 arithmetic -/

namespace F64

theorem bitlen_zero (fuel : Nat) : bitlen fuel 0 = 0 := by
  cases fuel <;> simp [bitlen]

theorem bitlen_bounds (fuel m : Nat) (h : m ≤ fuel) :
    m < 2 ^ bitlen fuel m ∧ (m ≠ 0 → 2 ^ (bitlen fuel m - 1) ≤ m) := by
  induction fuel generalizing m with
  | zero =>
    have : m = 0 := by omega
    subst this
    simp [bitlen]
  | succ fuel ih =>
    by_cases hm : m = 0
    · subst hm
      simp [bitlen]
    · have hle : m / 2 ≤ fuel := by omega
      obtain ⟨h1, h2⟩ := ih (m / 2) hle
      simp only [bitlen, hm, if_false, Nat.add_sub_cancel]
      constructor
      · rw [pow_succ]
        omega
      · intro _
        by_cases h0 : m / 2 = 0
        · rw [h0, bitlen_zero]
          simp
          omega
        · have h3 := h2 h0
          have hk : 1 ≤ bitlen fuel (m / 2) := by
            by_contra hc
            have : bitlen fuel (m / 2) = 0 := by omega
            rw [this] at h1
            simp at h1
            exact h0 h1
          have : 2 ^ bitlen fuel (m / 2) = 2 * 2 ^ (bitlen fuel (m / 2) - 1) := by
            rw [← pow_succ']
            congr 1
            omega
          omega

/-- The bit length is the position of the leading one. -/
theorem bitlen_eq (m n : Nat) (hlo : 2 ^ n ≤ m) (hhi : m < 2 ^ (n + 1)) :
    bitlen m m = n + 1 := by
  have hm : m ≠ 0 := by
    have : 0 < 2 ^ n := Nat.two_pow_pos n
    omega
  obtain ⟨h1, h2⟩ := bitlen_bounds m m le_rfl
  have h3 := h2 hm
  have a1 : n < bitlen m m := by
    by_contra hc
    have : 2 ^ bitlen m m ≤ 2 ^ n := Nat.pow_le_pow_right (by norm_num) (by omega)
    omega
  have a2 : bitlen m m - 1 < n + 1 := by
    by_contra hc
    have : 2 ^ (n + 1) ≤ 2 ^ (bitlen m m - 1) := Nat.pow_le_pow_right (by norm_num) (by omega)
    omega
  omega

theorem bitlen_le (m N : Nat) (h : m < 2 ^ N) : bitlen m m ≤ N := by
  by_cases hm : m = 0
  · subst hm
    rw [bitlen_zero]
    exact Nat.zero_le _
  · have h3 := (bitlen_bounds m m le_rfl).2 hm
    by_contra hc
    have : 2 ^ N ≤ 2 ^ (bitlen m m - 1) := Nat.pow_le_pow_right (by norm_num) (by omega)
    omega

theorem round_of_exponent (neg : Bool) (m : Nat) (e t : Int) (hm : m ≠ 0)
    (ht : max (e + (bitlen m m : Int) - 53) (-1074) = t) :
    round neg m e =
      if t ≤ e then
        if 971 < t then .inf neg else .fin neg (m * 2 ^ (e - t).toNat) t
      else
        if shiftRound m (t - e).toNat = 2 ^ 53 then
          if 971 < t + 1 then .inf neg else .fin neg (2 ^ 52) (t + 1)
        else
          if 971 < t then .inf neg else .fin neg (shiftRound m (t - e).toNat) t := by
  subst ht
  simp only [round, hm, if_false]

theorem shiftRound_mul_pow (a k : Nat) : shiftRound (a * 2 ^ k) k = a := by
  have hp : 0 < 2 ^ k := Nat.two_pow_pos k
  have hh : 0 < 2 ^ (k - 1) := Nat.two_pow_pos (k - 1)
  simp only [shiftRound, Nat.mul_mod_left, Nat.mul_div_cancel _ hp]
  rw [if_neg]
  rintro (h | ⟨h, -⟩) <;> omega

/-- A value that binary64 encodes, given with a finer last bit, rounds to itself. -/
theorem round_repr_fine (neg : Bool) (m mx : Nat) (ex : Int) (j : Nat)
    (hc : Canonical (.fin neg mx ex)) (hmx : mx ≠ 0) (h : m = mx * 2 ^ j) :
    round neg m (ex - j) = .fin neg mx ex := by
  obtain ⟨h53, hlo, hhi, hn⟩ := hc
  have hp : 0 < 2 ^ j := Nat.two_pow_pos j
  have hm : m ≠ 0 := by
    rw [h]
    exact Nat.mul_ne_zero hmx (by omega)
  have ht : max (ex - j + (bitlen m m : Int) - 53) (-1074) = ex := by
    rcases hn with hs | hnorm
    · have hb : bitlen m m ≤ 53 + j := by
        apply bitlen_le
        rw [h, pow_add]
        exact Nat.mul_lt_mul_of_lt_of_le h53 le_rfl hp
      omega
    · have hb : bitlen m m = 52 + j + 1 := by
        apply bitlen_eq
        · rw [h, pow_add]
          exact Nat.mul_le_mul hnorm le_rfl
        · rw [h, show 52 + j + 1 = 53 + j by omega, pow_add]
          exact Nat.mul_lt_mul_of_lt_of_le h53 le_rfl hp
      omega
  rw [round_of_exponent neg m (ex - j) ex hm ht]
  by_cases hj : j = 0
  · subst hj
    simp [h]
    omega
  · have h1 : ¬ (ex ≤ ex - (j : Int)) := by omega
    have h2 : (ex - (ex - (j : Int))).toNat = j := by omega
    have h3 : ¬ (971 < ex) := by omega
    rw [if_neg h1, h2, h, shiftRound_mul_pow mx j, if_neg (by omega), if_neg h3]

/-- A value that binary64 encodes, given with a coarser last bit, rounds to itself. -/
theorem round_repr_coarse (neg : Bool) (m mx : Nat) (ex : Int) (j : Nat)
    (hc : Canonical (.fin neg mx ex)) (hm : m ≠ 0) (h : mx = m * 2 ^ j) :
    round neg m (ex + j) = .fin neg mx ex := by
  obtain ⟨h53, hlo, hhi, hn⟩ := hc
  have hp : 0 < 2 ^ j := Nat.two_pow_pos j
  have ht : max (ex + j + (bitlen m m : Int) - 53) (-1074) = ex := by
    rcases hn with hs | hnorm
    · have hb : bitlen m m + j ≤ 53 := by
        by_contra hcon
        have h3 := (bitlen_bounds m m le_rfl).2 hm
        have : 2 ^ 53 ≤ 2 ^ (bitlen m m - 1 + j) := Nat.pow_le_pow_right (by norm_num) (by omega)
        rw [pow_add] at this
        have : 2 ^ (bitlen m m - 1) * 2 ^ j ≤ m * 2 ^ j := Nat.mul_le_mul h3 le_rfl
        omega
      omega
    · have hb : bitlen m m + j = 53 := by
        have h1 := (bitlen_bounds m m le_rfl).1
        have h3 := (bitlen_bounds m m le_rfl).2 hm
        have hB : 1 ≤ bitlen m m := by
          by_contra hcon
          have : bitlen m m = 0 := by omega
          rw [this] at h1
          simp at h1
          exact hm h1
        have u1 : m * 2 ^ j < 2 ^ (bitlen m m + j) := by
          rw [pow_add]
          exact Nat.mul_lt_mul_of_lt_of_le h1 le_rfl hp
        have u2 : 2 ^ (bitlen m m - 1 + j) ≤ m * 2 ^ j := by
          rw [pow_add]
          exact Nat.mul_le_mul h3 le_rfl
        have a1 : 52 < bitlen m m + j := by
          by_contra hcon
          have : 2 ^ (bitlen m m + j) ≤ 2 ^ 52 := Nat.pow_le_pow_right (by norm_num) (by omega)
          omega
        have a2 : bitlen m m - 1 + j < 53 := by
          by_contra hcon
          have : 2 ^ 53 ≤ 2 ^ (bitlen m m - 1 + j) := Nat.pow_le_pow_right (by norm_num) (by omega)
          omega
        omega
      omega
  rw [round_of_exponent neg m (ex + j) ex hm ht]
  have h1 : ex ≤ ex + (j : Int) := by omega
  have h2 : (ex + (j : Int) - ex).toNat = j := by omega
  have h3 : ¬ (971 < ex) := by omega
  rw [if_pos h1, if_neg h3, h2, ← h]

theorem shiftRound_bounds (m k : Nat) :
    m / 2 ^ k ≤ shiftRound m k ∧ shiftRound m k ≤ m / 2 ^ k + 1 := by
  unfold shiftRound
  simp only
  split <;> omega

theorem bitlen_pos (m : Nat) (hm : m ≠ 0) : 1 ≤ bitlen m m := by
  have h1 := (bitlen_bounds m m le_rfl).1
  by_contra hcon
  have : bitlen m m = 0 := by omega
  rw [this] at h1
  simp at h1
  exact hm h1

/-- Whatever is rounded, the result is a datum binary64 encodes. -/
theorem round_canonical (neg : Bool) (m : Nat) (e : Int) : Canonical (round neg m e) := by
  by_cases hm : m = 0
  · subst hm
    simp [round, Canonical]
  · have h1 := (bitlen_bounds m m le_rfl).1
    have h3 := (bitlen_bounds m m le_rfl).2 hm
    have hB := bitlen_pos m hm
    rw [round_of_exponent neg m e _ hm rfl]
    generalize ht : max (e + (bitlen m m : Int) - 53) (-1074) = t
    have ht1 : e + (bitlen m m : Int) - 53 ≤ t := by omega
    have ht2 : -1074 ≤ t := by omega
    have ht3 : t = -1074 ∨ t = e + (bitlen m m : Int) - 53 := by omega
    by_cases hte : t ≤ e
    · rw [if_pos hte]
      by_cases hov : 971 < t
      · rw [if_pos hov]
        trivial
      · rw [if_neg hov]
        obtain ⟨d, hd⟩ : ∃ d : Nat, (e - t).toNat = d := ⟨_, rfl⟩
        rw [hd]
        have hdB : bitlen m m + d ≤ 53 := by omega
        have u1 : m * 2 ^ d < 2 ^ (bitlen m m + d) := by
          rw [pow_add]
          exact Nat.mul_lt_mul_of_lt_of_le h1 le_rfl (Nat.two_pow_pos d)
        have u2 : 2 ^ (bitlen m m + d) ≤ 2 ^ 53 := Nat.pow_le_pow_right (by norm_num) hdB
        refine ⟨by omega, ht2, by omega, ?_⟩
        rcases ht3 with h | h
        · exact Or.inl h
        · right
          have hd53 : bitlen m m - 1 + d = 52 := by omega
          have : 2 ^ (bitlen m m - 1 + d) ≤ m * 2 ^ d := by
            rw [pow_add]
            exact Nat.mul_le_mul h3 le_rfl
          rw [hd53] at this
          exact this
    · rw [if_neg hte]
      obtain ⟨k, hk⟩ : ∃ k : Nat, (t - e).toNat = k := ⟨_, rfl⟩
      rw [hk]
      have hkB : bitlen m m ≤ 53 + k := by omega
      obtain ⟨b1, b2⟩ := shiftRound_bounds m k
      have u1 : m / 2 ^ k < 2 ^ 53 := by
        apply Nat.div_lt_of_lt_mul
        have : 2 ^ bitlen m m ≤ 2 ^ (53 + k) := Nat.pow_le_pow_right (by norm_num) hkB
        rw [pow_add, Nat.mul_comm] at this
        omega
      by_cases hq : shiftRound m k = 2 ^ 53
      · rw [if_pos hq]
        by_cases hov : 971 < t + 1
        · rw [if_pos hov]
          trivial
        · rw [if_neg hov]
          exact ⟨by norm_num, by omega, by omega, Or.inr le_rfl⟩
      · rw [if_neg hq]
        by_cases hov : 971 < t
        · rw [if_pos hov]
          trivial
        · rw [if_neg hov]
          refine ⟨by omega, ht2, by omega, ?_⟩
          rcases ht3 with h | h
          · exact Or.inl h
          · right
            have hk53 : bitlen m m - 1 = 52 + k := by omega
            have : 2 ^ 52 ≤ m / 2 ^ k := by
              rw [Nat.le_div_iff_mul_le (Nat.two_pow_pos k), ← pow_add, ← hk53]
              exact h3
            omega

/-- The sign factor of a datum. -/
theorem value_eq (s : Bool) (m : Nat) (e : Int) :
    value s m e = (if s then -1 else 1) * ((m : ℚ) * (2 : ℚ) ^ e) := by
  unfold value
  ring

theorem two_zpow_pos (e : Int) : (0 : ℚ) < (2 : ℚ) ^ e := zpow_pos (by norm_num) e

theorem sign_inj (a b : Bool) (P Q : ℚ) (hP : 0 < P) (hQ : 0 < Q)
    (h : (if a then (-1 : ℚ) else 1) * P = (if b then (-1 : ℚ) else 1) * Q) :
    a = b ∧ P = Q := by
  cases a <;> cases b <;> simp at h ⊢ <;> linarith

/-- Two ways of writing one binary rational differ by a power of two. -/
theorem pow_eq_cases (m n : Nat) (e f : Int) (h : (m : ℚ) * 2 ^ e = (n : ℚ) * 2 ^ f) :
    (f ≤ e ∧ n = m * 2 ^ (e - f).toNat) ∨ (e ≤ f ∧ m = n * 2 ^ (f - e).toNat) := by
  rcases le_total f e with hfe | hef
  · left
    refine ⟨hfe, ?_⟩
    obtain ⟨j, hj⟩ : ∃ j : Nat, e = f + j := ⟨(e - f).toNat, by omega⟩
    subst hj
    have : (f + (j : Int) - f).toNat = j := by omega
    rw [this]
    rw [zpow_add₀ (by norm_num : (2 : ℚ) ≠ 0), zpow_natCast] at h
    have hf : (2 : ℚ) ^ f ≠ 0 := (two_zpow_pos f).ne'
    have h2 : (m : ℚ) * 2 ^ j = (n : ℚ) := by
      have : ((m : ℚ) * 2 ^ j) * 2 ^ f = (n : ℚ) * 2 ^ f := by rw [← h]; ring
      exact mul_right_cancel₀ hf this
    exact_mod_cast h2.symm
  · right
    refine ⟨hef, ?_⟩
    obtain ⟨j, hj⟩ : ∃ j : Nat, f = e + j := ⟨(f - e).toNat, by omega⟩
    subst hj
    have : (e + (j : Int) - e).toNat = j := by omega
    rw [this]
    rw [zpow_add₀ (by norm_num : (2 : ℚ) ≠ 0), zpow_natCast] at h
    have he : (2 : ℚ) ^ e ≠ 0 := (two_zpow_pos e).ne'
    have h2 : (m : ℚ) = (n : ℚ) * 2 ^ j := by
      have : (m : ℚ) * 2 ^ e = ((n : ℚ) * 2 ^ j) * 2 ^ e := by rw [h]; ring
      exact mul_right_cancel₀ he this
    exact_mod_cast h2

/-- Rounding a value that binary64 encodes gives back that datum. -/
theorem round_of_value (s : Bool) (m mz : Nat) (e ez : Int)
    (hc : Canonical (.fin s mz ez)) (hmz : mz ≠ 0)
    (h : (m : ℚ) * 2 ^ e = (mz : ℚ) * 2 ^ ez) :
    round s m e = .fin s mz ez := by
  rcases pow_eq_cases m mz e ez h with ⟨hle, heq⟩ | ⟨hle, heq⟩
  · have hm : m ≠ 0 := by
      rintro rfl
      simp at heq
      exact hmz heq
    have he : e = ez + ((e - ez).toNat : Int) := by omega
    rw [he]
    exact round_repr_coarse s m mz ez _ hc hm heq
  · have he : e = ez - ((ez - e).toNat : Int) := by omega
    rw [he]
    exact round_repr_fine s m mz ez _ hc hmz heq

theorem signed_cast (s : Bool) (k : Nat) :
    ((signed s k : Int) : ℚ) = (if s then -1 else 1) * (k : ℚ) := by
  cases s <;> simp [signed]

theorem shifted_value (m : Nat) (e g : Int) (h : g ≤ e) :
    ((m * 2 ^ (e - g).toNat : Nat) : ℚ) * 2 ^ g = (m : ℚ) * 2 ^ e := by
  obtain ⟨j, hj⟩ : ∃ j : Nat, e = g + j := ⟨(e - g).toNat, by omega⟩
  subst hj
  have : (g + (j : Int) - g).toNat = j := by omega
  rw [this, zpow_add₀ (by norm_num : (2 : ℚ) ≠ 0), zpow_natCast]
  push_cast
  ring

theorem int_sign_abs (c : Int) :
    (c : ℚ) = (if decide (c < 0) then (-1 : ℚ) else 1) * ((c.natAbs : Nat) : ℚ) := by
  have hcast : ((c.natAbs : Nat) : ℚ) = (((c.natAbs : Nat) : Int) : ℚ) := (Int.cast_natCast _).symm
  rw [hcast]
  by_cases h : c < 0
  · have e : ((c.natAbs : Nat) : Int) = -c := by omega
    rw [e]
    simp [h]
  · have e : ((c.natAbs : Nat) : Int) = c := by omega
    rw [e]
    simp [h]

/-- The exact sum of two finite data, as the integer `add` forms times `2^g`. -/
theorem add_exact_sum (s t : Bool) (m n : Nat) (e f : Int) :
    ((signed s (m * 2 ^ (e - min e f).toNat) + signed t (n * 2 ^ (f - min e f).toNat) : Int) : ℚ)
        * 2 ^ (min e f) = value s m e + value t n f := by
  push_cast
  rw [signed_cast, signed_cast, add_mul, mul_assoc, mul_assoc,
    shifted_value m e (min e f) (min_le_left e f), shifted_value n f (min e f) (min_le_right e f),
    value_eq, value_eq]

/-- When the exact sum of two finite data is a value binary64 encodes, `add` returns
it. -/
theorem add_of_value (s t : Bool) (m n : Nat) (e f : Int) (z : F64)
    (hz : Canonical z) (hzf : z.isFinite = true)
    (h : value s m e + value t n f = z.num) :
    Exact (add (.fin s m e) (.fin t n f)) z.num := by
  have hsum := add_exact_sum s t m n e f
  rw [h] at hsum
  simp only [add]
  generalize hc : signed s (m * 2 ^ (e - min e f).toNat)
      + signed t (n * 2 ^ (f - min e f).toNat) = c at hsum
  by_cases h0 : c = 0
  · rw [if_pos h0]
    subst h0
    simp at hsum
    refine ⟨rfl, ?_⟩
    rw [← hsum]
    simp [num, value]
  · rw [if_neg h0]
    match z, hz, hzf, hsum with
    | .fin sz mz ez, hz, _, hsum =>
      simp only [num, value_eq] at hsum ⊢
      have hmz : mz ≠ 0 := by
        rintro rfl
        simp at hsum
        rcases hsum with hs | hs
        · exact h0 hs
        · exact absurd hs (two_zpow_pos _).ne'
      rw [int_sign_abs c, mul_assoc] at hsum
      have hP : (0 : ℚ) < ((c.natAbs : Nat) : ℚ) * 2 ^ (min e f) := by
        apply mul_pos _ (two_zpow_pos _)
        exact_mod_cast Int.natAbs_pos.mpr h0
      have hQ : (0 : ℚ) < (mz : ℚ) * 2 ^ ez := by
        apply mul_pos _ (two_zpow_pos _)
        exact_mod_cast Nat.pos_of_ne_zero hmz
      obtain ⟨hs, hv⟩ := sign_inj _ _ _ _ hP hQ hsum
      rw [hs, round_of_value sz c.natAbs mz (min e f) ez hz hmz hv]
      exact ⟨rfl, by simp [num, value_eq]⟩

theorem ofInt_canonical (n : Int) : Canonical (ofInt n) := round_canonical _ _ _

theorem add_def (x y : F64) : x + y = add x y := rfl

theorem sub_def (x y : F64) : x - y = add x (neg y) := rfl

theorem mul_def (x y : F64) : x * y = mul x y := rfl

theorem div_def (x y : F64) : x / y = div x y := rfl

theorem value_not (t : Bool) (n : Nat) (f : Int) : value (!t) n f = -value t n f := by
  cases t <;> simp [value]

/-- A finite sum has finite terms. -/
theorem add_finite (x y : F64) (h : (x + y).isFinite = true) :
    ∃ s m e t n f, x = .fin s m e ∧ y = .fin t n f := by
  rw [add_def] at h
  match x, y, h with
  | .fin s m e, .fin t n f, _ => exact ⟨s, m, e, t, n, f, rfl, rfl⟩
  | .nan, _, h => simp [add, isFinite] at h
  | .inf _, .nan, h => simp [add, isFinite] at h
  | .fin _ _ _, .nan, h => simp [add, isFinite] at h
  | .inf a, .inf b, h =>
    simp only [add] at h
    split at h <;> simp [isFinite] at h
  | .inf _, .fin _ _ _, h => simp [add, isFinite] at h
  | .fin _ _ _, .inf _, h => simp [add, isFinite] at h

/-- When `x + y` is computed exactly, subtracting `y` again gives back the value of
`x`. -/
theorem sub_add_exact (x y : F64) (hx : Canonical x)
    (h : Exact (x + y) (x.num + y.num)) : Exact ((x + y) - y) x.num := by
  obtain ⟨hf, hv⟩ := h
  obtain ⟨s, m, e, t, n, f, rfl, rfl⟩ := add_finite x y hf
  match hw : (F64.fin s m e + F64.fin t n f), hf, hv with
  | .fin sw mw ew, _, hv =>
    rw [sub_def]
    simp only [neg]
    apply add_of_value sw (!t) mw n ew f (.fin s m e) hx rfl
    rw [value_not]
    simp only [num] at hv ⊢
    rw [hv]
    ring

theorem add_canonical (x y : F64) : Canonical (x + y) := by
  rw [add_def]
  match x, y with
  | .nan, _ => simp [add, Canonical]
  | .inf _, .nan => simp [add, Canonical]
  | .fin _ _ _, .nan => simp [add, Canonical]
  | .inf a, .inf b =>
    simp only [add]
    split <;> simp [Canonical]
  | .inf _, .fin _ _ _ => simp [add, Canonical]
  | .fin _ _ _, .inf _ => simp [add, Canonical]
  | .fin s m e, .fin t n f =>
    simp only [add]
    split
    · simp [Canonical]
    · exact round_canonical _ _ _

theorem sign_div (s t : Bool) :
    (if s then (-1 : ℚ) else 1) / (if t then (-1 : ℚ) else 1) = if xor s t then (-1 : ℚ) else 1 := by
  cases s <;> cases t <;> norm_num

/-- When the exact quotient of two finite data is a value binary64 encodes, `div`
returns it. -/
theorem div_of_value (s t : Bool) (m n : Nat) (e f : Int) (z : F64)
    (hz : Canonical z) (hzf : z.isFinite = true)
    (hy : Canonical (.fin t n f)) (hn : n ≠ 0)
    (h : value s m e / value t n f = z.num) :
    Exact (div (.fin s m e) (.fin t n f)) z.num := by
  simp only [div, hn, if_false]
  match z, hz, hzf, h with
  | .fin sz mz ez, hz, _, h =>
    simp only [num] at h ⊢
    by_cases hm : m = 0
    · subst hm
      have hz0 : value sz mz ez = 0 := by
        rw [← h]
        simp [value]
      simp only [Nat.zero_mul, Nat.zero_div, Nat.zero_mod, if_true, Nat.mul_zero, Nat.add_zero]
      refine ⟨by simp [round, isFinite], ?_⟩
      rw [hz0]
      simp [round, num, value]
    · have hnq : (0 : ℚ) < (n : ℚ) := by exact_mod_cast Nat.pos_of_ne_zero hn
      have hmq : (0 : ℚ) < (m : ℚ) := by exact_mod_cast Nat.pos_of_ne_zero hm
      rw [value_eq, value_eq, value_eq, mul_div_mul_comm, sign_div] at h
      have hP : (0 : ℚ) < (m : ℚ) * 2 ^ e / ((n : ℚ) * 2 ^ f) :=
        div_pos (mul_pos hmq (two_zpow_pos e)) (mul_pos hnq (two_zpow_pos f))
      have hmz : mz ≠ 0 := by
        rintro rfl
        have h0 : (if xor s t = true then (-1 : ℚ) else 1) * ((m : ℚ) * 2 ^ e / ((n : ℚ) * 2 ^ f))
            = 0 := by
          rw [h]
          simp
        rcases mul_eq_zero.mp h0 with h1 | h1
        · split at h1 <;> norm_num at h1
        · exact hP.ne' h1
      have hQ : (0 : ℚ) < (mz : ℚ) * 2 ^ ez := by
        apply mul_pos _ (two_zpow_pos _)
        exact_mod_cast Nat.pos_of_ne_zero hmz
      obtain ⟨hs, hv⟩ := sign_inj _ _ _ _ hP hQ h
      have hcross : ((m * 2 ^ 128 : Nat) : ℚ) * 2 ^ (e - f - 128) = ((mz * n : Nat) : ℚ) * 2 ^ ez := by
        rw [div_eq_iff (mul_pos hnq (two_zpow_pos f)).ne'] at hv
        have e1 : (2 : ℚ) ^ (e - f - 128) = 2 ^ e / 2 ^ f / 2 ^ (128 : ℕ) := by
          rw [zpow_sub₀ (by norm_num : (2 : ℚ) ≠ 0), zpow_sub₀ (by norm_num : (2 : ℚ) ≠ 0)]
          norm_cast
        rw [e1]
        push_cast
        have hf : (2 : ℚ) ^ f ≠ 0 := (two_zpow_pos f).ne'
        field_simp
        linear_combination (2 ^ 128 : ℚ) * hv
      obtain ⟨h53z, _, _, _⟩ := hz
      obtain ⟨h53n, _, _, _⟩ := hy
      rcases pow_eq_cases _ _ _ _ hcross with ⟨_, heq⟩ | ⟨hle, heq⟩
      · exfalso
        have hlt : mz * n < 2 ^ 53 * 2 ^ 53 := Nat.mul_lt_mul'' h53z h53n
        have hge : 2 ^ 128 ≤ m * 2 ^ 128 * 2 ^ (e - f - 128 - ez).toNat := by
          have h1 : 1 ≤ m := Nat.pos_of_ne_zero hm
          have h2 : 1 ≤ 2 ^ (e - f - 128 - ez).toNat := Nat.two_pow_pos _
          calc 2 ^ 128 = 1 * 2 ^ 128 * 1 := by ring
            _ ≤ m * 2 ^ 128 * 2 ^ (e - f - 128 - ez).toNat :=
              Nat.mul_le_mul (Nat.mul_le_mul h1 le_rfl) h2
        rw [← heq] at hge
        norm_num at hlt hge
        omega
      · generalize hj : (ez - (e - f - 128)).toNat = j at heq
        have hq : m * 2 ^ 128 / n = mz * 2 ^ j := by
          rw [heq, Nat.mul_right_comm, Nat.mul_div_cancel _ (Nat.pos_of_ne_zero hn)]
        have hr : m * 2 ^ 128 % n = 0 := by
          rw [heq, Nat.mul_right_comm]
          exact Nat.mul_mod_left _ _
        rw [hq, hr, if_pos rfl, Nat.add_zero, hs]
        have hval : ((2 * (mz * 2 ^ j) : Nat) : ℚ) * 2 ^ (e - f - 129) = (mz : ℚ) * 2 ^ ez := by
          have hez : ez = (j : Int) + 1 + (e - f - 129) := by omega
          rw [hez, zpow_add₀ (by norm_num : (2 : ℚ) ≠ 0), zpow_add₀ (by norm_num : (2 : ℚ) ≠ 0),
            zpow_natCast]
          push_cast
          ring
        rw [round_of_value sz _ mz _ ez ⟨h53z, by assumption, by assumption, by assumption⟩ hmz hval]
        exact ⟨rfl, by simp [num, value_eq]⟩

/-- A finite product has finite factors. -/
theorem mul_finite (x y : F64) (h : (x * y).isFinite = true) :
    x.isFinite = true ∧ y.isFinite = true := by
  rw [mul_def] at h
  match x, y, h with
  | .fin _ _ _, .fin _ _ _, _ => exact ⟨rfl, rfl⟩
  | .nan, _, h => simp [mul, isFinite] at h
  | .inf _, .nan, h => simp [mul, isFinite] at h
  | .fin _ _ _, .nan, h => simp [mul, isFinite] at h
  | .inf _, .inf _, h => simp [mul, isFinite] at h
  | .inf _, .fin _ _ _, h =>
    simp only [mul] at h
    split at h <;> simp [isFinite] at h
  | .fin _ _ _, .inf _, h =>
    simp only [mul] at h
    split at h <;> simp [isFinite] at h

/-- When the exact quotient of two finite data is the value of a binary64 datum
`z`, the computed quotient is that value. -/
theorem div_exact_of (x y z : F64) (hx : x.isFinite = true) (hy : y.isFinite = true)
    (hyc : Canonical y) (hy0 : y.num ≠ 0) (hz : Canonical z) (hzf : z.isFinite = true)
    (h : x.num / y.num = z.num) : Exact (x / y) z.num := by
  match x, y, hx, hy, hyc, hy0, h with
  | .fin s m e, .fin t n f, _, _, hyc, hy0, h =>
    have hn : n ≠ 0 := by
      rintro rfl
      exact hy0 (by simp [num, value])
    exact div_of_value s t m n e f z hz hzf hyc hn h

/-- The arithmetic of `div(mul(z1, z2), z2)` on the fields `a, b` of `z1` and `c, d`
of `z2`: when every product, sum and difference before the two final divisions is
exact and the squared magnitude of `z2` is not zero, the two quotients are the
values of `a` and `b`. -/
theorem div_mul_fields (a b c d : F64) (ha : Canonical a) (hb : Canonical b)
    (m1 : ExactMul a c) (m2 : ExactMul b d) (m3 : ExactSub (a * c) (b * d))
    (m4 : ExactMul a d) (m5 : ExactMul b c) (m6 : ExactAdd (a * d) (b * c))
    (d1 : ExactMul c c) (d2 : ExactMul d d) (d3 : ExactAdd (c * c) (d * d))
    (d4 : ExactMul (a * c - b * d) c) (d5 : ExactMul (a * d + b * c) d)
    (d6 : ExactAdd ((a * c - b * d) * c) ((a * d + b * c) * d))
    (d7 : ExactMul (a * d + b * c) c) (d8 : ExactMul (a * c - b * d) d)
    (d9 : ExactSub ((a * d + b * c) * c) ((a * c - b * d) * d))
    (hmag : (c * c + d * d).num ≠ 0) :
    Exact (((a * c - b * d) * c + (a * d + b * c) * d) / (c * c + d * d)) a.num ∧
    Exact (((a * d + b * c) * c - (a * c - b * d) * d) / (c * c + d * d)) b.num := by
  have fa : a.isFinite = true := (mul_finite a c m1.1).1
  have fb : b.isFinite = true := (mul_finite b d m2.1).1
  have hD : (c * c + d * d).num = c.num * c.num + d.num * d.num := by
    rw [d3.2, d1.2, d2.2]
  have hD0 : c.num * c.num + d.num * d.num ≠ 0 := by
    rw [← hD]
    exact hmag
  constructor
  · apply div_exact_of _ _ a d6.1 d3.1 (add_canonical _ _) hmag ha fa
    rw [d6.2, d4.2, d5.2, m3.2, m6.2, m1.2, m2.2, m4.2, m5.2, hD]
    field_simp
    ring
  · apply div_exact_of _ _ b d9.1 d3.1 (add_canonical _ _) hmag hb fb
    rw [d9.2, d7.2, d8.2, m3.2, m6.2, m1.2, m2.2, m4.2, m5.2, hD]
    field_simp
    ring

end F64

/-! ## Properties of the specification -/

section claims

variable {α : Type}

/-- C1. For validated operands `a` (first) and `c` (second), whatever `c` is,
`div` does not fail and emits exactly one new ComplexNumber: it returns 1, the
stack grows by one full userdata at an address that was not allocated before, that
value passes validation, and its record is
`((a.re*c.re + a.im*c.im) / (c.re*c.re + c.im*c.im),
  (a.im*c.re - a.re*c.im) / (c.re*c.re + c.im*c.im))`. -/
theorem div_emits_quotient [Add α] [Sub α] [Mul α] [Div α] (L : lua_State α)
    (p1 p2 : Nat) (a c : S_COMPLEX α)
    (h1 : lua_checkcomplex 1 L = .ok p1 L) (ha : load p1 L = .ok a L)
    (h2 : lua_checkcomplex 2 L = .ok p2 L) (hc : load p2 L = .ok c L) :
    ∃ L1 : lua_State α,
      lua_complex_div L = .ok 1 L1 ∧
      L1.stack = L.stack ++ [.userdata L.memory.length] ∧
      L.memory[L.memory.length]? = none ∧
      lua_checkcomplex (-1) L1 = .ok L.memory.length L1 ∧
      load L.memory.length L1 =
        .ok ⟨(a.re * c.re + a.im * c.im) / (c.re * c.re + c.im * c.im),
             (a.im * c.re - a.re * c.im) / (c.re * c.re + c.im * c.im)⟩ L1 := by
  obtain ⟨mt, hr⟩ := registry_of_checked L 1 p1 h1
  obtain ⟨L1, hp, hs, _, _, hv, hl⟩ := pushed_is_complex L mt
    (⟨(a.re * c.re + a.im * c.im) / (c.re * c.re + c.im * c.im),
      (a.im * c.re - a.re * c.im) / (c.re * c.re + c.im * c.im)⟩ : S_COMPLEX α) hr
  refine ⟨L1, ?_, hs, by simp, hv, hl⟩
  simp only [lua_complex_div, bind_apply, h1, h2, ha, hc]
  exact hp

/-- C2. For validated operands `a` (first) and `c` (second), `mul` emits exactly
one new ComplexNumber whose record is
`(a.re*c.re - a.im*c.im, a.re*c.im + a.im*c.re)`. -/
theorem mul_emits_product [Add α] [Sub α] [Mul α] (L : lua_State α)
    (p1 p2 : Nat) (a c : S_COMPLEX α)
    (h1 : lua_checkcomplex 1 L = .ok p1 L) (ha : load p1 L = .ok a L)
    (h2 : lua_checkcomplex 2 L = .ok p2 L) (hc : load p2 L = .ok c L) :
    ∃ L1 : lua_State α,
      lua_complex_mul L = .ok 1 L1 ∧
      L1.stack = L.stack ++ [.userdata L.memory.length] ∧
      L.memory[L.memory.length]? = none ∧
      lua_checkcomplex (-1) L1 = .ok L.memory.length L1 ∧
      load L.memory.length L1 =
        .ok ⟨a.re * c.re - a.im * c.im, a.re * c.im + a.im * c.re⟩ L1 := by
  obtain ⟨mt, hr⟩ := registry_of_checked L 1 p1 h1
  obtain ⟨L1, hp, hs, _, _, hv, hl⟩ := pushed_is_complex L mt
    (⟨a.re * c.re - a.im * c.im, a.re * c.im + a.im * c.re⟩ : S_COMPLEX α) hr
  refine ⟨L1, ?_, hs, by simp, hv, hl⟩
  simp only [lua_complex_mul, bind_apply, h1, h2, ha, hc]
  exact hp

/-- C4. For a validated ComplexNumber `z`, `abs` returns exactly one result, the
plain number `z.re*z.re + z.im*z.im` (the squared magnitude, no square root is
taken); nothing is allocated. -/
theorem abs_squared_magnitude [Add α] [Mul α] (L : lua_State α) (p : Nat) (z : S_COMPLEX α)
    (h1 : lua_checkcomplex 1 L = .ok p L) (hz : load p L = .ok z L) :
    lua_complex_abs L =
      .ok 1 ⟨L.stack ++ [.number (z.re * z.re + z.im * z.im)], L.memory, L.registry⟩ := by
  simp only [lua_complex_abs, bind_apply, h1, hz, lua_pushnumber, push, pure_apply]

/-- C5. For all numbers `re` and `im` passed as the two arguments, with the module
loaded (its metatable registered under `LUA_COMPLEX`), `construct` returns one
value: a full userdata at an address that was not allocated before, stamped with
the type marker, accepted by validation, whose record reads back as `(re, im)`. -/
theorem new_reads_back (H : Host α) (L : lua_State α) (re im : α) (mt : Nat)
    (hre : index2adr L 1 = some (.number re)) (him : index2adr L 2 = some (.number im))
    (hr : registry_get L LUA_COMPLEX = .table mt) :
    ∃ L1 : lua_State α,
      lua_complex_new H L = .ok 1 L1 ∧
      L1.stack = L.stack ++ [.userdata L.memory.length] ∧
      L.memory[L.memory.length]? = none ∧
      Stamped L1 (index2adr L1 (-1)) ∧
      lua_checkcomplex (-1) L1 = .ok L.memory.length L1 ∧
      load L.memory.length L1 = .ok ⟨re, im⟩ L1 := by
  obtain ⟨L1, hp, hs, _, _, hv, hl⟩ := pushed_is_complex L mt (⟨re, im⟩ : S_COMPLEX α) hr
  refine ⟨L1, ?_, hs, by simp, (lua_checkcomplex_ok L1 L1 (-1) _ hv).2.2, hv, hl⟩
  simp only [lua_complex_new, bind_apply, luaL_checknumber, lua_tonumber, hre, him]
  exact hp


/-- C3. Whatever sits at an expected argument position (also nothing at all), if it
is not an allocation stamped with the ComplexNumber type marker then the operation
raises the type error naming `LUA_COMPLEX` and leaves the state as it was, so no
result is emitted.  The position reported is the first offending one: position 1
for every operation; position 2 for `add`, `sub`, `mul`, `div` only when position
1 is stamped. -/
theorem validation_rejects [Add α] [Sub α] [Mul α] [Div α] (H : Host α) (L : lua_State α) :
    (¬ Stamped L (index2adr L 1) →
      lua_complex_add L = .raise (.typerror 1 LUA_COMPLEX) L ∧
      lua_complex_sub L = .raise (.typerror 1 LUA_COMPLEX) L ∧
      lua_complex_mul L = .raise (.typerror 1 LUA_COMPLEX) L ∧
      lua_complex_div L = .raise (.typerror 1 LUA_COMPLEX) L ∧
      lua_complex_abs L = .raise (.typerror 1 LUA_COMPLEX) L ∧
      lua_complex_tostring H L = .raise (.typerror 1 LUA_COMPLEX) L) ∧
    (Stamped L (index2adr L 1) → ¬ Stamped L (index2adr L 2) →
      lua_complex_add L = .raise (.typerror 2 LUA_COMPLEX) L ∧
      lua_complex_sub L = .raise (.typerror 2 LUA_COMPLEX) L ∧
      lua_complex_mul L = .raise (.typerror 2 LUA_COMPLEX) L ∧
      lua_complex_div L = .raise (.typerror 2 LUA_COMPLEX) L) := by
  constructor
  · intro h
    have e := lua_checkcomplex_of_not_stamped L 1 h
    simp only [lua_complex_add, lua_complex_sub, lua_complex_mul, lua_complex_div,
      lua_complex_abs, lua_complex_tostring, bind_apply, e, and_self]
  · intro h1 h2
    obtain ⟨q, u, mt, hq, hu, hmt, hr⟩ := h1
    have e1 := lua_checkcomplex_of_stamped L 1 q hq ⟨q, u, mt, hq, hu, hmt, hr⟩
    have e2 := lua_checkcomplex_of_not_stamped L 2 h2
    simp only [lua_complex_add, lua_complex_sub, lua_complex_mul, lua_complex_div,
      bind_apply, e1, e2, and_self]

/-- C6. Called with two arguments pointing to a destination block and a source
record `z`, the clone hook returns no values and leaves the stack as it was; the
destination then reads as `z` and so does the source, whose block is unchanged.
When the two are different blocks, overwriting the source afterwards leaves the
destination reading `z`. -/
theorem lanesclone_copies (H : Host α) (L : lua_State α) (dst src : Nat)
    (mt : Option Nat) (z : S_COMPLEX α)
    (htop : lua_gettop L = 2)
    (hd : lua_touserdata L 1 = some dst) (hs : lua_touserdata L 2 = some src)
    (hdst : dst < L.memory.length) (hsrc : L.memory[src]? = some ⟨mt, some z⟩) :
    ∃ L1 : lua_State α,
      lua_complex_lanesclone H L = .ok 0 L1 ∧
      L1.stack = L.stack ∧
      load dst L1 = .ok z L1 ∧
      load src L1 = .ok z L1 ∧
      L1.memory[src]? = L.memory[src]? ∧
      (dst ≠ src → ∀ w : S_COMPLEX α, ∃ L2 : lua_State α,
        store src w L1 = .ok () L2 ∧ load src L2 = .ok w L2 ∧ load dst L2 = .ok z L2) := by
  obtain ⟨s, m, r⟩ := L
  simp only at hdst hsrc
  obtain ⟨ud, hud⟩ : ∃ ud, m[dst]? = some ud := ⟨m[dst], by simp [hdst]⟩
  have hsl : src < m.length := by
    by_contra hc
    rw [List.getElem?_eq_none (by omega)] at hsrc
    cases hsrc
  refine ⟨⟨s, m.modify (fun v => { v with contents := some z }) dst, r⟩, ?_, rfl, ?_, ?_, ?_, ?_⟩
  · simp [lua_complex_lanesclone, htop, bind_apply, pure_apply, hd, hs, copy_block, hsrc, hdst]
  · simp [load, List.getElem?_modify_eq, hud]
  · by_cases e : dst = src
    · subst e
      simp [load, List.getElem?_modify_eq, hud]
    · simp [load, List.getElem?_modify_ne _ _ e, hsrc]
  · by_cases e : dst = src
    · subst e
      simp [List.getElem?_modify_eq, hsrc]
    · simp [List.getElem?_modify_ne _ _ e]
  · intro e w
    refine ⟨⟨s, (m.modify (fun v => { v with contents := some z }) dst).modify
      (fun v => { v with contents := some w }) src, r⟩, ?_, ?_, ?_⟩
    · simp [store, hsl]
    · simp [load, List.getElem?_modify_eq, List.getElem?_modify_ne _ _ e, hsrc]
    · simp [load, List.getElem?_modify_eq, List.getElem?_modify_ne _ _ (Ne.symm e), hud]

/-- C7. The clone hook raises its invocation error exactly when the number of
arguments is neither 0 nor 2.  With no argument it does not fail: it returns one
value, the number `sizeof(S_COMPLEX)`, which is the size of two doubles, 16. -/
theorem lanesclone_arity (H : Host α) (L : lua_State α) :
    ((∃ msg, lua_complex_lanesclone H L = .raise (.error msg) L) ↔
        (lua_gettop L ≠ 0 ∧ lua_gettop L ≠ 2)) ∧
    (lua_gettop L = 0 →
        lua_complex_lanesclone H L =
          .ok 1 ⟨[.number (H.cast_num (sizeof_S_COMPLEX : Nat))], L.memory, L.registry⟩) ∧
    sizeof_S_COMPLEX = 2 * sizeof_double ∧ sizeof_S_COMPLEX = 16 := by
  obtain ⟨s, m, r⟩ := L
  refine ⟨?_, ?_, rfl, rfl⟩
  · match s with
    | [] =>
      simp [lua_complex_lanesclone, lua_gettop, bind_apply, pure_apply, lua_pushinteger, push]
    | [_] =>
      simp [lua_complex_lanesclone, lua_gettop, luaL_error]
    | [x, y] =>
      have hcb := copy_block_cases (lua_touserdata ⟨[x, y], m, r⟩ 1)
        (lua_touserdata ⟨[x, y], m, r⟩ 2) ⟨[x, y], m, r⟩
      simp only [lua_complex_lanesclone, lua_gettop, List.length_cons, List.length_nil,
        bind_apply, pure_apply]
      rcases hcb with ⟨L1, h⟩ | h <;> simp [h]
    | _ :: _ :: _ :: t =>
      simp [lua_complex_lanesclone, lua_gettop, luaL_error]
  · intro h
    have hs : s = [] := by simpa [lua_gettop] using h
    subst hs
    simp [lua_complex_lanesclone, lua_gettop, bind_apply, pure_apply, lua_pushinteger, push]

/-- C8, as amended.  Every function the module registers other than the clone hook
leaves every ComplexNumber instance that exists before the call with the same
record after it, whether the call returns or raises.  The clone hook does so for
every instance except the block its first argument points to when it is called
with two arguments.  Each operation that produces a ComplexNumber (`new`, `add`,
`sub`, `mul`, `div`) returns one value, a userdata at an address that was not
allocated before. -/
theorem existing_instances_kept [Add α] [Sub α] [Mul α] [Div α] (H : Host α) :
    (∀ nf ∈ complex_mt H ++ complexlib H, nf.1 ≠ "__lanesclone" → Immutable nf.2) ∧
    (∀ (L : lua_State α) (p : Nat) (z : S_COMPLEX α), IsInstance L p z →
      (lua_gettop L ≠ 2 ∨ lua_touserdata L 1 ≠ some p) →
      IsInstance (lua_complex_lanesclone H L).state p z) ∧
    (∀ f ∈ [lua_complex_new H, lua_complex_add, lua_complex_sub, lua_complex_mul,
          lua_complex_div],
      ∀ (L L1 : lua_State α) (n : Nat), f L = .ok n L1 →
        n = 1 ∧ L1.stack = L.stack ++ [.userdata L.memory.length] ∧
          L.memory[L.memory.length]? = none) := by
  refine ⟨?_, ?_, ?_⟩
  · intro nf hnf hne L p z hi
    simp only [complex_mt, complexlib, List.cons_append, List.nil_append, List.mem_cons,
      List.mem_singleton, List.not_mem_nil, or_false] at hnf
    rcases hnf with rfl | rfl | rfl | rfl | rfl | rfl | rfl | rfl | rfl | rfl
    · exact keeps_instance (frame_tostring H L) p z hi
    · exact keeps_instance (frame_tostring H L) p z hi
    · exact keeps_instance (frame_add L) p z hi
    · exact keeps_instance (frame_sub L) p z hi
    · exact keeps_instance (frame_mul L) p z hi
    · exact keeps_instance (frame_div L) p z hi
    · exact keeps_instance (frame_abs L) p z hi
    · exact absurd rfl hne
    · exact keeps_instance (frame_gc L) p z hi
    · exact keeps_instance (frame_new H L) p z hi
  · intro L p z hi h
    obtain ⟨mt, hb, hreg⟩ := hi
    obtain ⟨hm, hr⟩ := lanesclone_others H L p h
    exact ⟨mt, by rw [hm]; exact hb, by simpa [registry_get, hr] using hreg⟩
  · intro f hf L L1 n h
    simp only [List.mem_cons, List.mem_singleton, List.not_mem_nil, or_false] at hf
    rcases hf with rfl | rfl | rfl | rfl | rfl
    · exact new_ok H L L1 n h
    · exact binary_ok L L1 n h
    · exact binary_ok L L1 n h
    · exact binary_ok L L1 n h
    · exact binary_ok L L1 n h

end claims

/-! ## The properties at concrete inputs -/

section witnesses

/-- C1 at `a = (1.2, 3.4)`, `c = (5.6, 7.8)`: the hypotheses hold, `div` emits the
new ComplexNumber, and in binary64 its record is within `10^-14` of
`(0.36052060737527, 0.10498915401302)`. -/
theorem div_emits_quotient_witness :
    (lua_checkcomplex 1 sampleState = .ok 0 sampleState ∧
      load 0 sampleState = .ok sampleA sampleState ∧
      lua_checkcomplex 2 sampleState = .ok 1 sampleState ∧
      load 1 sampleState = .ok sampleC sampleState) ∧
    (∃ L1 : lua_State F64,
      lua_complex_div sampleState = .ok 1 L1 ∧
      L1.stack = sampleState.stack ++ [.userdata sampleState.memory.length] ∧
      sampleState.memory[sampleState.memory.length]? = none ∧
      lua_checkcomplex (-1) L1 = .ok sampleState.memory.length L1 ∧
      load sampleState.memory.length L1 =
        .ok ⟨(sampleA.re * sampleC.re + sampleA.im * sampleC.im) /
               (sampleC.re * sampleC.re + sampleC.im * sampleC.im),
             (sampleA.im * sampleC.re - sampleA.re * sampleC.im) /
               (sampleC.re * sampleC.re + sampleC.im * sampleC.im)⟩ L1) ∧
    ((sampleA.re * sampleC.re + sampleA.im * sampleC.im) /
        (sampleC.re * sampleC.re + sampleC.im * sampleC.im)
        = F64.fin false 6494561892138625 (-54) ∧
      (sampleA.im * sampleC.re - sampleA.re * sampleC.im) /
        (sampleC.re * sampleC.re + sampleC.im * sampleC.im)
        = F64.fin false 7565265838255341 (-56)) ∧
    (|(6494561892138625 : ℚ) * 2 ^ (-54 : ℤ) - 0.36052060737527| < 10 ^ (-14 : ℤ) ∧
      |(7565265838255341 : ℚ) * 2 ^ (-56 : ℤ) - 0.10498915401302| < 10 ^ (-14 : ℤ)) :=
  ⟨⟨rfl, rfl, rfl, rfl⟩,
   div_emits_quotient sampleState 0 1 sampleA sampleC rfl rfl rfl rfl,
   ⟨by decide!, by decide!⟩,
   ⟨by norm_num [abs_lt], by norm_num [abs_lt]⟩⟩

/-- C2 at `a = (1.2, 3.4)`, `c = (5.6, 7.8)`: the hypotheses hold, `mul` emits the
new ComplexNumber, and in binary64 its record is the pair of doubles nearest to
`-19.8` and `28.4`. -/
theorem mul_emits_product_witness :
    (lua_checkcomplex 1 sampleState = .ok 0 sampleState ∧
      load 0 sampleState = .ok sampleA sampleState ∧
      lua_checkcomplex 2 sampleState = .ok 1 sampleState ∧
      load 1 sampleState = .ok sampleC sampleState) ∧
    (∃ L1 : lua_State F64,
      lua_complex_mul sampleState = .ok 1 L1 ∧
      L1.stack = sampleState.stack ++ [.userdata sampleState.memory.length] ∧
      sampleState.memory[sampleState.memory.length]? = none ∧
      lua_checkcomplex (-1) L1 = .ok sampleState.memory.length L1 ∧
      load sampleState.memory.length L1 =
        .ok ⟨sampleA.re * sampleC.re - sampleA.im * sampleC.im,
             sampleA.re * sampleC.im + sampleA.im * sampleC.re⟩ L1) ∧
    (sampleA.re * sampleC.re - sampleA.im * sampleC.im = F64.ofDecimal (-198) 1 ∧
      sampleA.re * sampleC.im + sampleA.im * sampleC.re = F64.ofDecimal 284 1) :=
  ⟨⟨rfl, rfl, rfl, rfl⟩,
   mul_emits_product sampleState 0 1 sampleA sampleC rfl rfl rfl rfl,
   ⟨by decide!, by decide!⟩⟩

/-- C4 at `z = (5.6, 7.8)`: the hypotheses hold and `abs` returns one number; in
binary64 it is `6487998213180620 * 2^-46`, the double just below `92.2`, less than
`10^-13` away from it. -/
theorem abs_squared_magnitude_witness :
    (lua_checkcomplex 1 (withArgs sampleState [.userdata 1])
        = .ok 1 (withArgs sampleState [.userdata 1]) ∧
      load 1 (withArgs sampleState [.userdata 1])
        = .ok sampleC (withArgs sampleState [.userdata 1])) ∧
    lua_complex_abs (withArgs sampleState [.userdata 1]) =
      .ok 1 ⟨[.userdata 1, .number (sampleC.re * sampleC.re + sampleC.im * sampleC.im)],
        sampleState.memory, sampleState.registry⟩ ∧
    sampleC.re * sampleC.re + sampleC.im * sampleC.im = F64.fin false 6487998213180620 (-46) ∧
    |(6487998213180620 : ℚ) * 2 ^ (-46 : ℤ) - 92.2| < 10 ^ (-13 : ℤ) :=
  ⟨⟨rfl, rfl⟩,
   abs_squared_magnitude (withArgs sampleState [.userdata 1]) 1 sampleC rfl rfl,
   by decide!,
   by norm_num [abs_lt]⟩

/-- C5 at `COMPLEX.new(1.2,-3.4)`: the hypotheses hold and the new value reads back
as the two doubles passed. -/
theorem new_reads_back_witness :
    (index2adr newState 1 = some (.number (F64.ofDecimal 12 1)) ∧
      index2adr newState 2 = some (.number (F64.ofDecimal (-34) 1)) ∧
      registry_get newState LUA_COMPLEX = .table 7) ∧
    (∃ L1 : lua_State F64,
      lua_complex_new sampleHost newState = .ok 1 L1 ∧
      L1.stack = newState.stack ++ [.userdata newState.memory.length] ∧
      newState.memory[newState.memory.length]? = none ∧
      Stamped L1 (index2adr L1 (-1)) ∧
      lua_checkcomplex (-1) L1 = .ok newState.memory.length L1 ∧
      load newState.memory.length L1 =
        .ok ⟨F64.ofDecimal 12 1, F64.ofDecimal (-34) 1⟩ L1) :=
  ⟨⟨rfl, rfl, rfl⟩,
   new_reads_back sampleHost newState (F64.ofDecimal 12 1) (F64.ofDecimal (-34) 1) 7
     rfl rfl rfl⟩

/-- C6 at the frame lanes builds: the hypotheses hold, the fresh destination block
1 reads as the source record afterwards. -/
theorem lanesclone_copies_witness :
    (lua_gettop cloneState = 2 ∧ lua_touserdata cloneState 1 = some 1 ∧
      lua_touserdata cloneState 2 = some 0 ∧ 1 < cloneState.memory.length ∧
      cloneState.memory[0]? = some ⟨some 7, some sampleA⟩) ∧
    (∃ L1 : lua_State F64,
      lua_complex_lanesclone sampleHost cloneState = .ok 0 L1 ∧
      L1.stack = cloneState.stack ∧
      load 1 L1 = .ok sampleA L1 ∧
      load 0 L1 = .ok sampleA L1 ∧
      L1.memory[0]? = cloneState.memory[0]? ∧
      ((1 : Nat) ≠ 0 → ∀ w : S_COMPLEX F64, ∃ L2 : lua_State F64,
        store 0 w L1 = .ok () L2 ∧ load 0 L2 = .ok w L2 ∧ load 1 L2 = .ok sampleA L2)) :=
  ⟨⟨rfl, rfl, rfl, by decide, rfl⟩,
   lanesclone_copies sampleHost cloneState 1 0 (some 7) sampleA rfl rfl rfl (by decide) rfl⟩

/-- C3 at a frame `(3, c)` and at a frame `(a, "5.6")`: the number at position 1 is
reported as position 1 by all six operations, the string at position 2 as position
2 by the four binary ones. -/
theorem validation_rejects_witness :
    (¬ Stamped numberFirst (index2adr numberFirst 1) ∧
      lua_complex_add numberFirst = .raise (.typerror 1 LUA_COMPLEX) numberFirst ∧
      lua_complex_sub numberFirst = .raise (.typerror 1 LUA_COMPLEX) numberFirst ∧
      lua_complex_mul numberFirst = .raise (.typerror 1 LUA_COMPLEX) numberFirst ∧
      lua_complex_div numberFirst = .raise (.typerror 1 LUA_COMPLEX) numberFirst ∧
      lua_complex_abs numberFirst = .raise (.typerror 1 LUA_COMPLEX) numberFirst ∧
      lua_complex_tostring sampleHost numberFirst
        = .raise (.typerror 1 LUA_COMPLEX) numberFirst) ∧
    (Stamped stringSecond (index2adr stringSecond 1) ∧
      ¬ Stamped stringSecond (index2adr stringSecond 2) ∧
      lua_complex_add stringSecond = .raise (.typerror 2 LUA_COMPLEX) stringSecond ∧
      lua_complex_sub stringSecond = .raise (.typerror 2 LUA_COMPLEX) stringSecond ∧
      lua_complex_mul stringSecond = .raise (.typerror 2 LUA_COMPLEX) stringSecond ∧
      lua_complex_div stringSecond = .raise (.typerror 2 LUA_COMPLEX) stringSecond) := by
  have h1 : ¬ Stamped numberFirst (index2adr numberFirst 1) := by
    rintro ⟨p, u, mt, h, -⟩
    cases h
  have h2 : Stamped stringSecond (index2adr stringSecond 1) :=
    ⟨0, ⟨some 7, some sampleA⟩, 7, rfl, rfl, rfl, rfl⟩
  have h3 : ¬ Stamped stringSecond (index2adr stringSecond 2) := by
    rintro ⟨p, u, mt, h, -⟩
    cases h
  exact ⟨⟨h1, (validation_rejects sampleHost numberFirst).1 h1⟩,
    ⟨h2, h3, (validation_rejects sampleHost stringSecond).2 h2 h3⟩⟩

/-- C7 at an empty frame, at the two-pointer frame and at a frame of one argument:
the first returns the size 16, the second does not raise the invocation error, the
third does. -/
theorem lanesclone_arity_witness :
    (lua_gettop (withArgs cloneState []) = 0 ∧
      lua_complex_lanesclone sampleHost (withArgs cloneState []) =
        .ok 1 ⟨[.number (F64.ofInt 16)], cloneState.memory, cloneState.registry⟩) ∧
    (¬ ∃ msg, lua_complex_lanesclone sampleHost cloneState = .raise (.error msg) cloneState) ∧
    (∃ msg, lua_complex_lanesclone sampleHost (withArgs cloneState [.nil]) =
        .raise (.error msg) (withArgs cloneState [.nil])) :=
  ⟨⟨rfl, (lanesclone_arity sampleHost (withArgs cloneState [])).2.1 rfl⟩,
   fun h => ((lanesclone_arity sampleHost cloneState).1.1 h).2 rfl,
   (lanesclone_arity sampleHost (withArgs cloneState [.nil])).1.2 ⟨by decide, by decide⟩⟩

/-- C8 as stated fails for the clone hook: called on the frame `(a, c)` of two
existing ComplexNumbers it overwrites the record of `a` with that of `c`. -/
theorem lanesclone_overwrites_instance :
    ¬ Immutable (lua_complex_lanesclone sampleHost) := by
  intro h
  obtain ⟨mt, hb, -⟩ := h sampleState 0 sampleA ⟨7, rfl, rfl⟩
  have e : (lua_complex_lanesclone sampleHost sampleState).state.memory[0]?
      = some ⟨some 7, some sampleC⟩ := rfl
  rw [e] at hb
  have hne : sampleC ≠ sampleA := by decide!
  simp only [Option.some.injEq, Udata.mk.injEq] at hb
  exact hne hb.2

/-- C8 as amended, at the frame `(a, c)`: `__add` keeps the instance at block 0, the
clone hook keeps the instance at block 1 (its first argument points to block 0),
and `__add` returns one value at the fresh address 2. -/
theorem existing_instances_kept_witness :
    (IsInstance sampleState 0 sampleA ∧
      IsInstance (lua_complex_add sampleState).state 0 sampleA) ∧
    (IsInstance sampleState 1 sampleC ∧
      IsInstance (lua_complex_lanesclone sampleHost sampleState).state 1 sampleC) ∧
    (∀ (L1 : lua_State F64) (n : Nat), lua_complex_add sampleState = .ok n L1 →
      n = 1 ∧ L1.stack = sampleState.stack ++ [.userdata sampleState.memory.length] ∧
        sampleState.memory[sampleState.memory.length]? = none) :=
  ⟨⟨⟨7, rfl, rfl⟩,
    (existing_instances_kept sampleHost).1 ("__add", lua_complex_add)
      (by simp [complex_mt]) (by decide) sampleState 0 sampleA ⟨7, rfl, rfl⟩⟩,
   ⟨⟨7, rfl, rfl⟩,
    (existing_instances_kept sampleHost).2.1 sampleState 1 sampleC ⟨7, rfl, rfl⟩
      (Or.inr (by decide))⟩,
   fun L1 n h => (existing_instances_kept sampleHost).2.2 lua_complex_add
      (by simp) sampleState L1 n h⟩

/-- Division by the zero-magnitude divisor `(0, 0)` is not an error: `div` returns
one new ComplexNumber whose fields are both NaN. -/
theorem div_by_zero_magnitude :
    ∃ L1 : lua_State F64,
      lua_complex_div ⟨[.userdata 0, .userdata 1],
          [⟨some 7, some sampleA⟩, ⟨some 7, some ⟨F64.ofInt 0, F64.ofInt 0⟩⟩],
          [(LUA_COMPLEX, .table 7)]⟩ = .ok 1 L1 ∧
      load 2 L1 = .ok ⟨.nan, .nan⟩ L1 :=
  ⟨(lua_complex_div ⟨[.userdata 0, .userdata 1],
      [⟨some 7, some sampleA⟩, ⟨some 7, some ⟨F64.ofInt 0, F64.ofInt 0⟩⟩],
      [(LUA_COMPLEX, .table 7)]⟩).state, by decide!, by decide!⟩

end witnesses

end LComplex
